import Mathlib

/-!
Verification of the tactical battle engine of the `landust` repository.

The definitions below are a shallow embedding of the TypeScript sources:
`MapGrid.ts`, `Grid.ts`, `Unit.ts`, `Spell.ts` (the `EffectEngine`-based
revision), `EffectEngine.ts`, the effect classes (`DamageEffect`,
`HealEffect`, `BuffApEffect`, `DrainApEffect`, `TeleportEffect`,
`PushEffect`) and `TurnManager.ts` (the dead-unit-skipping revision).

Modelling conventions:
* JS `number` values that the engine uses as integers are modelled as `Int`
  (positions, hp/ap/mp, costs, durations).
* JS `undefined`/optional fields are modelled as `Option`.
* JS arrays are `List`s; `arr[i]` on an `Int` index is `listGetInt`,
  which returns `none` for a negative or too-large index (JS `undefined`).
* Mutation is modelled by explicit state passing; object identity of units
  is modelled by keying units by their `id` string in a `World`.
* Rendering-only parts (floating text, sprites, `scene`) are omitted:
  the spec declares them out of scope, and they do not touch engine state.
-/

namespace Landust

/-- `Position` from `MapGrid.ts` / `Grid.ts`: an integer pair. -/
structure Position where
  x : Int
  y : Int
deriving DecidableEq

/-- JS array read `l[i]` with an integer index: `undefined` (`none`) when the
index is negative or past the end. -/
def listGetInt {α : Type} (l : List α) (i : Int) : Option α :=
  if 0 ≤ i then l[i.toNat]? else none

/-- JS array write `l[i] = a` for an integer index.  An in-range index
updates the slot.  An out-of-range index is a plain JS property write; the
engine never reads such properties back (all later reads are bounds
checked), so it is modelled as a no-op. -/
def listSetInt {α : Type} (l : List α) (i : Int) (a : α) : List α :=
  if 0 ≤ i then l.set i.toNat a else l

/-- `MapCell` from `MapGrid.ts`.  The `occupiedBy` unit reference is
modelled by the occupant's `id`. -/
structure MapCell where
  walkable : Bool := true
  occupiedBy : Option String := none
deriving DecidableEq

/-- `MapGrid` from `MapGrid.ts`. -/
structure MapGrid where
  width : Nat
  height : Nat
  cells : List (List MapCell)
deriving DecidableEq

/-- The `MapGrid` constructor: a `height × width` table of fresh cells. -/
def MapGrid.create (width height : Nat) : MapGrid :=
  ⟨width, height, List.replicate height (List.replicate width ⟨true, none⟩)⟩

/-- `MapGrid.inBounds`. -/
def MapGrid.inBounds (g : MapGrid) (pos : Position) : Bool :=
  decide (0 ≤ pos.x) && decide (pos.x < (g.width : Int)) &&
  decide (0 ≤ pos.y) && decide (pos.y < (g.height : Int))

/-- The raw 2D table access `this.cells[pos.y][pos.x]`. -/
def MapGrid.cellAt? (g : MapGrid) (pos : Position) : Option MapCell :=
  (listGetInt g.cells pos.y).bind fun row => listGetInt row pos.x

/-- `MapGrid.isWalkable`: the short-circuiting `&&` means the table is only
indexed when `inBounds` already holds. -/
def MapGrid.isWalkable (g : MapGrid) (pos : Position) : Bool :=
  g.inBounds pos &&
    (match g.cellAt? pos with
     | some c => c.walkable
     | none => false)

/-- `MapGrid.isOccupied`. -/
def MapGrid.isOccupied (g : MapGrid) (pos : Position) : Bool :=
  g.inBounds pos &&
    (match g.cellAt? pos with
     | some c => c.occupiedBy.isSome
     | none => false)

/-- `MapGrid.getOccupant`. -/
def MapGrid.getOccupant (g : MapGrid) (pos : Position) : Option String :=
  if g.inBounds pos then (g.cellAt? pos).bind (·.occupiedBy) else none

/-- `MapGrid.setOccupied`: guarded by `inBounds`, otherwise no mutation. -/
def MapGrid.setOccupied (g : MapGrid) (pos : Position) (unit : Option String) :
    MapGrid :=
  if g.inBounds pos then
    match listGetInt g.cells pos.y with
    | some row =>
        let newCell : MapCell :=
          match listGetInt row pos.x with
          | some c => { c with occupiedBy := unit }
          | none => { walkable := true, occupiedBy := unit }
        { g with cells := listSetInt g.cells pos.y (listSetInt row pos.x newCell) }
    | none => g
  else g

/-- Structural well-formedness of the cell table (what `MapGrid.create`
produces): `height` rows of `width` cells each. -/
def MapGrid.wf (g : MapGrid) : Prop :=
  g.cells.length = g.height ∧ ∀ row ∈ g.cells, row.length = g.width

/-! ### `Grid.ts`: board geometry, reachability and pathfinding

Both BFS routines allocate a `height × width` `visited` table and index it
at the start position *before* any bounds check
(`visited[from.y][from.x] = true`).  In JS, `visited[y]` with `y` outside
`[0, height)` is `undefined`, so the subsequent `[x]` access throws; with
`y` in range but `x` out of range the write is a plain property write that
no later (always bounds-checked) read observes.  Results are therefore
wrapped in `BfsRes`: `.oob` models the thrown `TypeError`, `.fuelOut` is
the fuel-exhaustion artefact of the embedding (the loops below are run
with more fuel than the number of possible queue entries). -/

/-- Result of an embedded BFS run. -/
inductive BfsRes (α : Type) where
  | ok (val : α)
  | oob
  | fuelOut
deriving DecidableEq

/-- `Grid` from `Grid.ts` (board dimensions; terrain lives in `MapGrid`). -/
structure Grid where
  width : Nat := 10
  height : Nat := 10
deriving DecidableEq

/-- The bounds test `nx >= 0 && nx < this.width && ny >= 0 && ny < this.height`
used inside both BFS loops. -/
def Grid.inGrid (g : Grid) (p : Position) : Bool :=
  decide (0 ≤ p.x) && decide (p.x < (g.width : Int)) &&
  decide (0 ≤ p.y) && decide (p.y < (g.height : Int))

/-- The direction list `[[0,-1],[0,1],[-1,0],[1,0]]` ( `[dx, dy]` pairs). -/
def dirs : List (Int × Int) := [(0, -1), (0, 1), (-1, 0), (1, 0)]

/-- One orthogonal step. -/
def stepPos (p : Position) (d : Int × Int) : Position :=
  ⟨p.x + d.1, p.y + d.2⟩

/-- The `visited` table: a `height`-long list of `width`-long `Bool` rows. -/
def Visited := List (List Bool)

/-- `Array.from({length: height}, () => Array(width).fill(false))`. -/
def mkVisited (g : Grid) : Visited :=
  List.replicate g.height (List.replicate g.width false)

/-- Read `visited[p.y][p.x]`.  A missing row is a JS throw (`none`); a
missing column inside an existing row is `undefined`, which the `!visited`
test treats as `false`. -/
def readV (v : Visited) (p : Position) : Option Bool :=
  (listGetInt v p.y).map fun row => (listGetInt row p.x).getD false

/-- Write `visited[p.y][p.x] = true`.  A missing row is a JS throw
(`none`); an out-of-range column is a property write never read back. -/
def writeV (v : Visited) (p : Position) : Option Visited :=
  match listGetInt v p.y with
  | none => none
  | some row => some (listSetInt v p.y (listSetInt row p.x true))

/-- Queue entries of `getReachableCells`: `{ pos, cost }`. -/
structure ReachEntry where
  pos : Position
  cost : Nat
deriving DecidableEq

/-- The walkable-and-unoccupied test shared by both searches. -/
def MapGrid.freeB (m : MapGrid) (p : Position) : Bool :=
  m.isWalkable p && !(m.isOccupied p)

/-- The inner direction loop of `getReachableCells`: for each direction,
bounds-check, visited-check, walkable/occupancy-check, then mark and
enqueue. -/
def Grid.reachExpand (g : Grid) (m : MapGrid) (pos : Position) (cost : Nat) :
    List (Int × Int) → Visited → Option (Visited × List ReachEntry)
  | [], v => some (v, [])
  | d :: ds, v =>
    let npos := stepPos pos d
    if g.inGrid npos then
      match readV v npos with
      | none => none
      | some seen =>
        if !seen && m.freeB npos then
          match writeV v npos with
          | none => none
          | some v' =>
            match g.reachExpand m pos cost ds v' with
            | none => none
            | some (v'', pushes) => some (v'', ⟨npos, cost + 1⟩ :: pushes)
        else g.reachExpand m pos cost ds v
    else g.reachExpand m pos cost ds v

/-- The `while (queue.length > 0)` loop of `getReachableCells`. -/
def Grid.reachLoop (g : Grid) (m : MapGrid) (pm : Int) :
    Nat → List ReachEntry → Visited → List Position → BfsRes (List Position)
  | 0, _, _, _ => .fuelOut
  | _ + 1, [], _, acc => .ok acc
  | fuel + 1, e :: queue, v, acc =>
    let acc' := if 0 < e.cost then acc ++ [e.pos] else acc
    if (e.cost : Int) = pm then g.reachLoop m pm fuel queue v acc'
    else
      match g.reachExpand m e.pos e.cost dirs v with
      | none => .oob
      | some (v', pushes) => g.reachLoop m pm fuel (queue ++ pushes) v' acc'

/-- `Grid.getReachableCells(from, pm, map)`.  The unguarded initial write
`visited[from.y][from.x] = true` throws exactly when the start's row index
is out of range. -/
def Grid.getReachableCells (g : Grid) (src : Position) (pm : Int)
    (m : MapGrid) : BfsRes (List Position) :=
  match writeV (mkVisited g) src with
  | none => .oob
  | some v => g.reachLoop m pm (g.width * g.height + 2) [⟨src, 0⟩] v []

/-- Queue entries of `findPath`: `{ pos, path, cost }`. -/
structure PathEntry where
  pos : Position
  path : List Position
  cost : Nat
deriving DecidableEq

/-- Outcome of the inner direction loop of `findPath`: either the early
`return [...path, pos, npos].slice(1)` fired, or the loop finished with an
updated visited table and the entries pushed in direction order. -/
inductive ExpandRes where
  | found (p : List Position)
  | cont (v : Visited) (pushes : List PathEntry)

/-- The inner direction loop of `findPath`.  For each direction the
destination test (`nx === to.x && ny === to.y && walkable && !occupied`,
with no grid-bounds condition) precedes the generic bounds/visited/free
push test. -/
def Grid.pathExpand (g : Grid) (m : MapGrid) (dst : Position)
    (pos : Position) (path : List Position) (cost : Nat) :
    List (Int × Int) → Visited → Option ExpandRes
  | [], v => some (.cont v [])
  | d :: ds, v =>
    let npos := stepPos pos d
    if npos = dst ∧ m.freeB npos then
      some (.found ((path ++ [pos, npos]).drop 1))
    else if g.inGrid npos then
      match readV v npos with
      | none => none
      | some seen =>
        if !seen && m.freeB npos then
          match writeV v npos with
          | none => none
          | some v' =>
            match g.pathExpand m dst pos path cost ds v' with
            | none => none
            | some (.found p) => some (.found p)
            | some (.cont v'' pushes) =>
              some (.cont v'' (⟨npos, path ++ [pos], cost + 1⟩ :: pushes))
        else g.pathExpand m dst pos path cost ds v
    else g.pathExpand m dst pos path cost ds v

/-- The `while (queue.length > 0)` loop of `findPath`.  `ok none` is the
JS `null` ("no path"). -/
def Grid.pathLoop (g : Grid) (m : MapGrid) (dst : Position) (maxCost : Int) :
    Nat → List PathEntry → Visited → BfsRes (Option (List Position))
  | 0, _, _ => .fuelOut
  | _ + 1, [], _ => .ok none
  | fuel + 1, e :: queue, v =>
    if (e.cost : Int) = maxCost then g.pathLoop m dst maxCost fuel queue v
    else
      match g.pathExpand m dst e.pos e.path e.cost dirs v with
      | none => .oob
      | some (.found p) => .ok (some p)
      | some (.cont v' pushes) =>
        g.pathLoop m dst maxCost fuel (queue ++ pushes) v'

/-- `Grid.findPath(from, to, maxCost, map)`.  `from == to` returns the
empty path before the visited table is even created. -/
def Grid.findPath (g : Grid) (src dst : Position) (maxCost : Int)
    (m : MapGrid) : BfsRes (Option (List Position)) :=
  if src = dst then .ok (some [])
  else
    match writeV (mkVisited g) src with
    | none => .oob
    | some v => g.pathLoop m dst maxCost (g.width * g.height + 2) [⟨src, [], 0⟩] v

/-! ### `Unit.ts`: resources, timed states, turn lifecycle -/

/-- `State` from `Unit.ts`.  Optional fields are JS `undefined` when
absent; an absent `duration` behaves like `NaN` under arithmetic and
comparisons (never `≤ 0`, so such a state never expires). -/
structure State where
  id : String
  type : String
  duration : Option Int := none
  value : Option Int := none
  source : Option String := none
  stackable : Option Bool := none
  expire : Option String := none
deriving DecidableEq

/-- `SpellEffectConfig` from `Spell.ts`.  `radius` is the untyped
`(config as any).radius` read by the push factory case. -/
structure SpellEffectConfig where
  type : String
  value : Int
  duration : Option Int := none
  sourceSpell : Option String := none
  radius : Option Int := none
deriving DecidableEq

/-- `Spell` from `Spell.ts` (the `EffectEngine`-delegating revision).
Constructor defaults: `minRange ?? 1`, `maxCastsPerTurn ?? 1`,
`cooldownCounter = 0`. -/
structure Spell where
  name : String
  cost : Int
  range : Int
  minRange : Int := 1
  maxCastsPerTurn : Int := 1
  targetType : String
  effects : List SpellEffectConfig
  cooldown : Option Int := none
  cooldownCounter : Int := 0
deriving DecidableEq

/-- `Spell.decrementCooldown`: `if (this.cooldownCounter && this.cooldownCounter > 0)`
(truthiness plus the positivity test is just positivity). -/
def Spell.decrementCooldown (sp : Spell) : Spell :=
  if 0 < sp.cooldownCounter then { sp with cooldownCounter := sp.cooldownCounter - 1 }
  else sp

/-- `Unit` from `Unit.ts` (fields only; the multi-arity constructor is
content setup and not needed by any claim). -/
structure Unit where
  id : String
  name : String
  team : Int
  position : Position
  hp : Int
  maxHP : Int
  ap : Int
  maxAP : Int
  mp : Int
  maxMP : Int
  spells : List Spell := []
  selectedSpellIdx : Int := -1
  castsThisTurn : List (String × Nat) := []
  shouldRestoreAP : Bool := true
  states : List State := []
deriving DecidableEq

/-- `Unit.isAlive`. -/
def Unit.isAlive (u : Unit) : Bool := decide (0 < u.hp)

/-- `Unit.takeDamage`: subtract, clamp below at 0. -/
def Unit.takeDamage (u : Unit) (amount : Int) : Unit :=
  let hp' := u.hp - amount
  { u with hp := if hp' < 0 then 0 else hp' }

/-- `Unit.heal`: add, clamp above at `maxHP`. -/
def Unit.heal (u : Unit) (amount : Int) : Unit :=
  { u with hp := min u.maxHP (u.hp + amount) }

/-- `Unit.loseAP`: clamp at 0, return the updated unit and the actual
amount lost. -/
def Unit.loseAP (u : Unit) (amount : Int) : Unit × Int :=
  let ap' := max 0 (u.ap - amount)
  ({ u with ap := ap' }, u.ap - ap')

/-- `Unit.preventAPRestore`. -/
def Unit.preventAPRestore (u : Unit) : Unit :=
  { u with shouldRestoreAP := false }

/-- `Unit.applyState`: a non-stackable state first removes every existing
state of the same `type` (regardless of `source`), then a copy of the new
state is appended.  JS truthiness: `!state.stackable` holds for both
`undefined` and `false`. -/
def Unit.applyState (u : Unit) (s : State) : Unit :=
  let base := if s.stackable ≠ some true
    then u.states.filter (fun t => t.type ≠ s.type)
    else u.states
  { u with states := base ++ [s] }

/-- `Unit.removeState`. -/
def Unit.removeState (u : Unit) (sid : String) : Unit :=
  { u with states := u.states.filter (fun s => s.id ≠ sid) }

/-- `Unit.hasState`. -/
def Unit.hasState (u : Unit) (t : String) : Bool :=
  u.states.any (fun s => s.type = t)

/-- `Unit.updateStates(phase)`: iterate over the states from the highest
index down; a state whose `expire` phase (default `'start'`) matches is
decremented; any state whose (possibly decremented) duration is `≤ 0` is
spliced out, and an expiring `ap_loss` state with `expire === 'end'`
restores `ap` to `maxAP` as a side effect.  The right-to-left `foldr`
matches the descending index loop. -/
def updateStatesStep (maxAP : Int) (phase : String) (s : State)
    (acc : List State × Int) : List State × Int :=
  let exp := s.expire.getD "start"
  let s' := if exp = phase then { s with duration := s.duration.map (· - 1) } else s
  match s'.duration with
  | some d =>
    if d ≤ 0 then
      (acc.1, if s'.type = "ap_loss" ∧ exp = "end" then maxAP else acc.2)
    else (s' :: acc.1, acc.2)
  | none => (s' :: acc.1, acc.2)

/-- See the doc comment right above `updateStatesStep`. -/
def Unit.updateStates (u : Unit) (phase : String) : Unit :=
  let r := u.states.foldr (updateStatesStep u.maxAP phase) ([], u.ap)
  { u with states := r.1, ap := r.2 }

/-- `Unit.startTurn(baseMP = 4)`: expire `'start'` states, set `mp` to
`baseMP`, restore `ap` to `maxAP` only when `shouldRestoreAP` holds and no
`ap_loss` state is present, add every active `buff_ap` value (JS skips
falsy values; adding 0 is equivalent), restore `mp` to `maxMP` unless an
`mp_loss` state is present, then reset the suppression flag, the per-turn
cast counters and the spell selection. -/
def Unit.startTurn (u : Unit) (baseMP : Int := 4) : Unit :=
  let u1 := u.updateStates "start"
  let u2 := { u1 with mp := baseMP }
  let u3 := if u2.shouldRestoreAP && !(u2.hasState "ap_loss")
    then { u2 with ap := u2.maxAP } else u2
  let buffSum := (u3.states.filter (fun s => s.type = "buff_ap")).foldl
    (fun acc s => acc + s.value.getD 0) 0
  let u4 := { u3 with ap := u3.ap + buffSum }
  let u5 := if !(u4.hasState "mp_loss") then { u4 with mp := u4.maxMP } else u4
  { u5 with shouldRestoreAP := true,
            castsThisTurn := u5.spells.map (fun sp => (sp.name, 0)),
            selectedSpellIdx := -1 }

/-- `Unit.updateEndOfTurnStates`: expire `'end'` states, then recompute
`ap`/`mp` from the maxima plus all remaining buff/debuff values (JS skips
falsy values; adding or subtracting 0 is equivalent), clamp both at 0, and
tick every spell cooldown. -/
def Unit.updateEndOfTurnStates (u : Unit) : Unit :=
  let u1 := u.updateStates "end"
  let sums := u1.states.foldl
    (fun (acc : Int × Int) s =>
      let v := s.value.getD 0
      if s.type = "buff_ap" then (acc.1 + v, acc.2)
      else if s.type = "debuff_ap" then (acc.1 - v, acc.2)
      else if s.type = "buff_mp" then (acc.1, acc.2 + v)
      else if s.type = "debuff_mp" then (acc.1, acc.2 - v)
      else acc)
    (u1.maxAP, u1.maxMP)
  { u1 with ap := max 0 sums.1, mp := max 0 sums.2,
            spells := u1.spells.map Spell.decrementCooldown }

/-- `Unit.restoreResources`. -/
def Unit.restoreResources (u : Unit) : Unit :=
  { u with ap := u.maxAP, mp := u.maxMP }

/-- `Unit.canMoveTo`: a Manhattan-distance budget check only. -/
def Unit.canMoveTo (u : Unit) (dst : Position) : Bool :=
  decide (((u.position.x - dst.x).natAbs + (u.position.y - dst.y).natAbs : Int) ≤ u.mp)

/-- `Unit.moveTo(path)`: visit `min(path.length, mp)` cells, one `mp`
each; the per-step `onStep` rendering callback is dropped.  The final
state has the position of the last visited cell. -/
def Unit.moveTo (u : Unit) (path : List Position) : Unit :=
  let steps : Int := min (path.length : Int) u.mp
  if 0 < steps then
    match (path.take steps.toNat).getLast? with
    | some last => { u with position := last, mp := u.mp - steps }
    | none => u
  else u

/-- `Unit.isSelf`: identity by `id`. -/
def Unit.isSelf (u other : Unit) : Bool := decide (u.id = other.id)

/-- `Unit.isAllyOf`: same team. -/
def Unit.isAllyOf (u other : Unit) : Bool := decide (u.team = other.team)

/-- `Unit.isEnemyOf`: different team. -/
def Unit.isEnemyOf (u other : Unit) : Bool := decide (u.team ≠ other.team)

/-! ### The effect framework (`effects/*.ts`, `EffectEngine.ts`)

Units are aliased mutable objects in JS (the `target` of an effect may be
the caster itself).  The embedding therefore keys units by their `id` in a
`World` and lets effects read and write through the id, which models
object identity exactly.  The `scene` part of the JS `EffectContext` is
rendering-only and dropped; the `map` reference is modelled by a presence
flag (`mapPresent`) next to the world's single map. -/

/-- `EffectContext` from `effects/Effect.ts` (minus `scene`). -/
structure EffectContext where
  mapPresent : Bool := true
  cellPosition : Option Position := none
  sourceSpell : Option String := none
deriving DecidableEq

/-- The mutable object graph reached by effects: all units plus the
occupancy map.  `nextStateId` models the JS fresh-id generation
(`Date.now()` + `Math.random()`) by a counter. -/
structure World where
  units : List Unit
  map : MapGrid
  nextStateId : Nat := 0
deriving DecidableEq

/-- Dereference a unit id. -/
def World.getUnit? (w : World) (uid : String) : Option Unit :=
  w.units.find? (fun u => u.id = uid)

/-- Mutate the unit object with the given id. -/
def World.updateUnit (w : World) (uid : String) (f : Unit → Unit) : World :=
  { w with units := w.units.map (fun u => if u.id = uid then f u else u) }

/-- Generate a fresh state id (JS: a timestamp/random suffix). -/
def World.freshId (w : World) (base : String) : String × World :=
  (base ++ toString w.nextStateId, { w with nextStateId := w.nextStateId + 1 })

/-- The effect objects produced by `EffectFactory.createEffect`. -/
inductive IEffect where
  | damageE (value : Int)
  | healE (value : Int)
  | buffApE (value : Int) (duration : Option Int) (sourceSpell : Option String)
  | drainApE (value : Int) (duration : Option Int)
  | teleportE (value : Int)
  | pushE (value : Int) (radius : Int)
deriving DecidableEq

/-- `EffectFactory.createEffect`: switch on the config's `type` string;
an unknown type throws (`none`, caught by `applyEffect`).  The push radius
is `(config as any).radius || 1` (absent and `0` are falsy). -/
def EffectFactory.createEffect (config : SpellEffectConfig) : Option IEffect :=
  match config.type with
  | "damage" => some (.damageE config.value)
  | "heal" => some (.healE config.value)
  | "buff_ap" => some (.buffApE config.value config.duration config.sourceSpell)
  | "drain_ap" => some (.drainApE config.value config.duration)
  | "teleport" => some (.teleportE config.value)
  | "push" =>
    some (.pushE config.value
      (match config.radius with
       | some r => if r = 0 then 1 else r
       | none => 1))
  | _ => none

/-- `DamageEffect.apply`: requires a live target; reduces its HP. -/
def DamageEffect.apply (value : Int) (targetId : Option String) (w : World) :
    World × Bool :=
  match targetId.bind w.getUnit? with
  | some t =>
    if t.isAlive then (w.updateUnit t.id (fun u => u.takeDamage value), true)
    else (w, false)
  | none => (w, false)

/-- `HealEffect.apply`: requires a live target; heals it. -/
def HealEffect.apply (value : Int) (targetId : Option String) (w : World) :
    World × Bool :=
  match targetId.bind w.getUnit? with
  | some t =>
    if t.isAlive then (w.updateUnit t.id (fun u => u.heal value), true)
    else (w, false)
  | none => (w, false)

/-- `BuffApEffect.apply`: requires a live target; refuses when an active
`buff_ap` state from the same source spell exists; otherwise applies a new
timed state (via `Unit.applyState`) and, for a self-cast, grants the AP
immediately.  `this.sourceSpell || context?.sourceSpell` falls through on
the falsy empty string as well as on `undefined`. -/
def BuffApEffect.apply (value : Int) (duration : Option Int)
    (sourceSpell0 : Option String) (casterId : String)
    (targetId : Option String) (ctx : EffectContext) (w : World) :
    World × Bool :=
  match targetId.bind w.getUnit? with
  | none => (w, false)
  | some t =>
    if !t.isAlive then (w, false)
    else
      let sourceSpell :=
        match sourceSpell0 with
        | some s => if s = "" then ctx.sourceSpell else some s
        | none => ctx.sourceSpell
      match t.states.find? (fun s => s.type = "buff_ap" ∧ s.source = sourceSpell) with
      | some _ => (w, false)
      | none =>
        let fresh := w.freshId "buff_ap_"
        let st : State :=
          { id := fresh.1, type := "buff_ap", duration := duration,
            value := some value, source := sourceSpell }
        let w2 := fresh.2.updateUnit t.id (fun u => u.applyState st)
        let w3 :=
          if t.id = casterId ∧ value ≠ 0 then
            w2.updateUnit t.id (fun u => { u with ap := u.ap + value })
          else w2
        (w3, true)

/-- `DrainApEffect.apply`: requires a live target; immediate clamped AP
loss plus a fresh `ap_loss` state. -/
def DrainApEffect.apply (value : Int) (duration : Option Int)
    (targetId : Option String) (w : World) : World × Bool :=
  match targetId.bind w.getUnit? with
  | none => (w, false)
  | some t =>
    if !t.isAlive then (w, false)
    else
      let w1 := w.updateUnit t.id (fun u => (u.loseAP value).1)
      let fresh := w1.freshId "ap_loss_"
      let st : State :=
        { id := fresh.1, type := "ap_loss", duration := duration,
          value := some value }
      (fresh.2.updateUnit t.id (fun u => u.applyState st), true)

/-- `TeleportEffect.apply`: requires a context map and cell; the cell must
be walkable and unoccupied; relocates the caster, vacating its old cell
first. -/
def TeleportEffect.apply (casterId : String) (ctx : EffectContext)
    (w : World) : World × Bool :=
  if !ctx.mapPresent then (w, false)
  else
    match ctx.cellPosition with
    | none => (w, false)
    | some pos =>
      if !(w.map.isWalkable pos) || w.map.isOccupied pos then (w, false)
      else
        match w.getUnit? casterId with
        | none => (w, false)
        | some c =>
          let w1 := { w with map := w.map.setOccupied c.position none }
          let w2 := w1.updateUnit casterId (fun u => { u with position := pos })
          ({ w2 with map := w2.map.setOccupied pos (some casterId) }, true)

/-- `a ≤ W / √s` for integers with `s ≥ 1`, decided exactly by squaring
with sign analysis. -/
def leSqrtDiv (a w s : Int) : Bool :=
  if 0 ≤ w then decide (a ≤ 0) || decide (a * a * s ≤ w * w)
  else decide (a < 0) && decide (w * w ≤ a * a * s)

/-- `Math.round(t + num / √s)` for integers with `s ≥ 1`, computed
exactly: the result is the unique `z` with
`2(z-t) - 1 ≤ 2·num/√s < 2(z-t) + 1` (JS rounds halves up).  The JS
original computes with doubles; at board-scale magnitudes the double
result agrees with the exact real value. -/
def roundShift (t num s : Int) : Int :=
  let r := num.natAbs
  let cands := (List.range (2 * r + 1)).map (fun k => t - (r : Int) + k)
  match cands.find? (fun z =>
    leSqrtDiv (2 * (z - t) - 1) (2 * num) s &&
    !leSqrtDiv (2 * (z - t) + 1) (2 * num) s) with
  | some z => z
  | none => t

/-- The projected push destination: the target position moved `radius`
cells along the unit vector from caster to target, rounded per
coordinate. -/
def pushDestination (casterPos targetPos : Position) (radius : Int) : Position :=
  let dx := targetPos.x - casterPos.x
  let dy := targetPos.y - casterPos.y
  let s := dx * dx + dy * dy
  ⟨roundShift targetPos.x (dx * radius) s, roundShift targetPos.y (dy * radius) s⟩

/-- `PushEffect.apply`: requires a live target, a context map and a
direction (caster and target on distinct positions); relocates the target
to the projected cell only when it is walkable and unoccupied. -/
def PushEffect.apply (radius : Int) (casterId : String)
    (targetId : Option String) (ctx : EffectContext) (w : World) :
    World × Bool :=
  match targetId.bind w.getUnit? with
  | none => (w, false)
  | some t =>
    if !t.isAlive || !ctx.mapPresent then (w, false)
    else
      match w.getUnit? casterId with
      | none => (w, false)
      | some c =>
        let dx := t.position.x - c.position.x
        let dy := t.position.y - c.position.y
        if dx = 0 ∧ dy = 0 then (w, false)
        else
          let newPos := pushDestination c.position t.position radius
          if !(w.map.isWalkable newPos) || w.map.isOccupied newPos then (w, false)
          else
            let w1 := { w with map := w.map.setOccupied t.position none }
            let w2 := w1.updateUnit t.id (fun u => { u with position := newPos })
            ({ w2 with map := w2.map.setOccupied newPos (some t.id) }, true)

/-- Dispatch `effect.apply(caster, target, context)`. -/
def IEffect.apply (e : IEffect) (casterId : String) (targetId : Option String)
    (ctx : EffectContext) (w : World) : World × Bool :=
  match e with
  | .damageE v => DamageEffect.apply v targetId w
  | .healE v => HealEffect.apply v targetId w
  | .buffApE v d src => BuffApEffect.apply v d src casterId targetId ctx w
  | .drainApE v d => DrainApEffect.apply v d targetId w
  | .teleportE _ => TeleportEffect.apply casterId ctx w
  | .pushE _ r => PushEffect.apply r casterId targetId ctx w

/-- `EffectEngine.applyEffect`: construct the effect and apply it; a
factory throw is caught and reported as `false`. -/
def EffectEngine.applyEffect (config : SpellEffectConfig) (casterId : String)
    (targetId : Option String) (ctx : EffectContext) (w : World) :
    World × Bool :=
  match EffectFactory.createEffect config with
  | none => (w, false)
  | some e => e.apply casterId targetId ctx w

/-- The `{ effects, cost }` shape `EffectEngine.applySpell` receives. -/
structure SpellCosted where
  effects : List SpellEffectConfig
  cost : Int
deriving DecidableEq

/-- The effect loop of `applySpell`: every effect is applied (no
short-circuit), `anyEffect` accumulates with `||`. -/
def EffectEngine.applyEffectsLoop (effects : List SpellEffectConfig)
    (casterId : String) (targetId : Option String) (ctx : EffectContext)
    (w : World) : World × Bool :=
  effects.foldl
    (fun acc config =>
      let r := EffectEngine.applyEffect config casterId targetId ctx acc.1
      (r.1, acc.2 || r.2))
    (w, false)

/-- The per-effect success values of the loop, in order. -/
def EffectEngine.applyEffectsTrace (effects : List SpellEffectConfig)
    (casterId : String) (targetId : Option String) (ctx : EffectContext)
    (w : World) : List Bool :=
  match effects with
  | [] => []
  | config :: rest =>
    let r := EffectEngine.applyEffect config casterId targetId ctx w
    r.2 :: EffectEngine.applyEffectsTrace rest casterId targetId ctx r.1

/-- `EffectEngine.applySpell`: subtract the cost once (after an AP check)
when it is positive, then apply every effect; returns whether any effect
applied.  The caster-id lookup miss is unreachable in JS (the caster is a
live object reference) and returns `false` here. -/
def EffectEngine.applySpell (spell : SpellCosted) (casterId : String)
    (targetId : Option String) (ctx : EffectContext) (w : World) :
    World × Bool :=
  if 0 < spell.cost then
    match w.getUnit? casterId with
    | none => (w, false)
    | some c =>
      if c.ap < spell.cost then (w, false)
      else
        EffectEngine.applyEffectsLoop spell.effects casterId targetId ctx
          (w.updateUnit casterId (fun u => { u with ap := u.ap - spell.cost }))
  else EffectEngine.applyEffectsLoop spell.effects casterId targetId ctx w

/-- The `selfOnly` null-target substitution at the top of `Spell.cast`. -/
def Spell.actualTargetId (sp : Spell) (casterId : String)
    (targetId : Option String) : Option String :=
  if sp.targetType = "selfOnly" ∧ targetId = none then some casterId else targetId

/-- `Spell.cast`: no re-validation; stamp every effect config with this
spell's name as `sourceSpell`, delegate to `EffectEngine.applySpell`, and
on success start the cooldown (`if (result && this.cooldown)`; absent and
`0` cooldowns are falsy). -/
def Spell.cast (sp : Spell) (casterId : String) (targetId : Option String)
    (ctx : EffectContext) (w : World) : Spell × World × Bool :=
  let actualTarget := sp.actualTargetId casterId targetId
  let effectsWithSource :=
    sp.effects.map (fun e => { e with sourceSpell := some sp.name })
  let r := EffectEngine.applySpell ⟨effectsWithSource, sp.cost⟩ casterId
    actualTarget ctx w
  let sp' :=
    if r.2 then
      match sp.cooldown with
      | some cd => if cd ≠ 0 then { sp with cooldownCounter := cd } else sp
      | none => sp
    else sp
  (sp', r.1, r.2)

/-! ### `TurnManager.ts` (the dead-unit-skipping revision)

Event listeners (`onTurnStart`, …) and the optional turn timer only feed
the rendering layer and are dropped.  `triggerStartOfTurnEffects` /
`triggerEndOfTurnEffects` are no-op hooks in `Unit.ts`. -/

/-- `TurnManager` state: the fixed unit list, the rotating index and the
phase string. -/
structure TurnManager where
  units : List Unit
  currentIndex : Nat := 0
  phase : String := "start"
deriving DecidableEq

/-- The `while (checked < units.length)` scan of `getCurrentUnit`:
starting at `idx`, return the first alive unit, advancing (and wrapping)
the index past dead ones; `none` after a full wrap.  The `units[idx]`
lookup miss is unreachable while the index is below the length. -/
def TurnManager.currentLoop (units : List Unit) : Nat → Nat → Nat × Option Unit
  | 0, idx => (idx, none)
  | n + 1, idx =>
    match units[idx]? with
    | none => (idx, none)
    | some u =>
      if u.isAlive then (idx, some u)
      else TurnManager.currentLoop units n ((idx + 1) % units.length)

/-- `getCurrentUnit()`: returns the updated manager (the scan moves
`currentIndex`) and the alive unit found, if any. -/
def TurnManager.getCurrentUnit (tm : TurnManager) : TurnManager × Option Unit :=
  let r := TurnManager.currentLoop tm.units tm.units.length tm.currentIndex
  ({ tm with currentIndex := r.1 }, r.2)

/-- `mainPhase()`. -/
def TurnManager.mainPhase (tm : TurnManager) : TurnManager :=
  let r := ({ tm with phase := "main" } : TurnManager).getCurrentUnit
  match r.2 with
  | some _ => r.1
  | none => { r.1 with phase := "end" }

/-- `startTurn()`: restore the current alive unit's resources
(`unit.startTurn()`, base MP 4) and move to the main phase; with no alive
unit, force the end phase. -/
def TurnManager.startTurn (tm : TurnManager) : TurnManager :=
  let r := ({ tm with phase := "start" } : TurnManager).getCurrentUnit
  match r.2 with
  | some u =>
    ({ r.1 with units := r.1.units.set r.1.currentIndex (u.startTurn 4) }).mainPhase
  | none => { r.1 with phase := "end" }

/-- The `do … while (checked < units.length)` advance of `endTurn`: step
the index at least once, stopping at the first alive unit; after a full
fruitless wrap the index is back where it started. -/
def TurnManager.advanceLoop (units : List Unit) : Nat → Nat → Nat
  | 0, idx => idx
  | n + 1, idx =>
    let idx' := (idx + 1) % units.length
    match units[idx']? with
    | none => idx'
    | some u => if u.isAlive then idx' else TurnManager.advanceLoop units n idx'

/-- `endTurn()`: fire the (no-op) end hooks on the current unit, advance
to the next alive unit, start its turn. -/
def TurnManager.endTurn (tm : TurnManager) : TurnManager :=
  let r := ({ tm with phase := "end" } : TurnManager).getCurrentUnit
  let tm1 := r.1
  let idx' := TurnManager.advanceLoop tm1.units tm1.units.length tm1.currentIndex
  ({ tm1 with currentIndex := idx' }).startTurn

/-! ### Operation sequences over a world (for the resource invariants) -/

/-- The engine commands that mutate unit resources: spell casts, moves,
and the two turn-boundary state-expiry recomputations (plus the raw
clamped AP loss primitive). -/
inductive BattleOp where
  | castOp (sp : Spell) (casterId : String) (targetId : Option String)
      (ctx : EffectContext)
  | moveOp (uid : String) (path : List Position)
  | startTurnOp (uid : String)
  | endTurnStatesOp (uid : String)
  | loseAPOp (uid : String) (amount : Int)

/-- Execute one command against the world. -/
def BattleOp.step (w : World) : BattleOp → World
  | .castOp sp cid tid ctx => (sp.cast cid tid ctx w).2.1
  | .moveOp uid path => w.updateUnit uid (fun u => u.moveTo path)
  | .startTurnOp uid => w.updateUnit uid (fun u => u.startTurn 4)
  | .endTurnStatesOp uid => w.updateUnit uid Unit.updateEndOfTurnStates
  | .loseAPOp uid amount => w.updateUnit uid (fun u => (u.loseAP amount).1)

/-- Run a command sequence. -/
def runOps (w : World) (ops : List BattleOp) : World :=
  ops.foldl BattleOp.step w

/-- Well-formed unit: non-negative resources and caps, and every
`buff_ap` state carries a non-negative magnitude (buff states are created
from spell content, which is non-negative in all game data). -/
def Unit.wf (u : Unit) : Prop :=
  0 ≤ u.ap ∧ 0 ≤ u.mp ∧ 0 ≤ u.maxAP ∧ 0 ≤ u.maxMP ∧
  ∀ s ∈ u.states, s.type = "buff_ap" → 0 ≤ s.value.getD 0

/-- Well-formed world: every unit is well-formed. -/
def World.wfUnits (w : World) : Prop := ∀ u ∈ w.units, u.wf

/-- JS object identity: every unit object in a battle has a distinct id
(Unit construction assigns unique ids). -/
def World.dupFree (w : World) : Prop :=
  w.units.Pairwise (fun a b => a.id ≠ b.id)

/-- Well-formed spell content: buff effects have non-negative values. -/
def Spell.contentWF (sp : Spell) : Prop :=
  ∀ e ∈ sp.effects, e.type = "buff_ap" → 0 ≤ e.value

/-- Well-formed command: any spell cast uses well-formed content. -/
def BattleOp.wfOp : BattleOp → Prop
  | .castOp sp _ _ _ => sp.contentWF
  | _ => True

/-! ### Specification-side path notions (for the pathfinding claims) -/

/-- Walkable and unoccupied (the transitability condition of both
searches). -/
def FreeP (m : MapGrid) (p : Position) : Prop :=
  m.isWalkable p = true ∧ m.isOccupied p = false

/-- `cells` is a chain of orthogonal steps starting at `src`. -/
def IsChain (src : Position) : List Position → Prop
  | [] => True
  | p :: rest => (∃ d ∈ dirs, p = stepPos src d) ∧ IsChain p rest

/-- A valid route from `src` to `dst` for `findPath`: a non-empty

orthogonal chain from `src` ending at `dst`, every cell before the last
inside the grid and free, and the destination itself free (the early
destination test has no grid-bounds condition, so the destination is only
required to be free). -/
def ValidPath (g : Grid) (m : MapGrid) (src dst : Position)
    (cells : List Position) : Prop :=
  cells ≠ [] ∧ cells.getLast? = some dst ∧ IsChain src cells ∧
  (∀ p ∈ cells.dropLast, g.inGrid p = true ∧ FreeP m p) ∧ FreeP m dst

/-- The BFS frontier shape: the queue is a block of entries at some cost
`c` followed by a block at `c + 1`. -/
def QShape (queue : List PathEntry) : Prop :=
  ∃ c A B, queue = A ++ B ∧ (∀ e ∈ A, e.cost = c) ∧ (∀ e ∈ B, e.cost = c + 1)

/-- A sound `findPath` queue entry: its recorded path really walks from
`src` to its position through in-grid free cells, and its cost counts the
steps. -/
def EntryOK (g : Grid) (m : MapGrid) (src : Position) (e : PathEntry) : Prop :=
  e.path.length = e.cost ∧
  ∃ tail, e.path ++ [e.pos] = src :: tail ∧ IsChain src tail ∧
    ∀ x ∈ tail, g.inGrid x = true ∧ FreeP m x

/-- The optimality invariant of the `findPath` loop, relative to a fixed
route `n 0, …, n L`: entry costs count path lengths, the queue keeps the
BFS frontier shape, costs never exceed a non-negative `maxCost`, and
either some queue entry sits on the route at least as far along as its
cost with the rest of the route unvisited, or every queued entry is at
`maxCost` (so the loop only drains and answers `null`). -/
def PathInv (maxCost : Int) (n : Nat → Position) (L : Nat)
    (queue : List PathEntry) (v : Visited) : Prop :=
  (∀ e ∈ queue, e.path.length = e.cost) ∧
  QShape queue ∧
  (0 ≤ maxCost → ∀ e ∈ queue, (e.cost : Int) ≤ maxCost) ∧
  ((∃ j, j < L ∧ (∃ e ∈ queue, e.pos = n j ∧ e.cost ≤ j) ∧
      ∀ i, j < i → i < L → readV v (n i) ≠ some true) ∨
    (∀ e ∈ queue, (e.cost : Int) = maxCost))

/-! ### Concrete fixtures used by the scenario claims -/

/-- The reference 10×10 board. -/
def grid10 : Grid := ⟨10, 10⟩

/-- An empty 10×10 occupancy map: every cell walkable, none occupied. -/
def emptyMap10 : MapGrid := MapGrid.create 10 10

/-- What `getReachableCells((0,0), 2, empty 10×10)` actually returns:
the five on-board cells at Manhattan distance 1 or 2 from the corner. -/
def reachFromCorner : List Position := [⟨0, 1⟩, ⟨1, 0⟩, ⟨0, 2⟩, ⟨1, 1⟩, ⟨2, 0⟩]

/-- A test unit in the image of the class-template constructor. -/
def mkUnitFix (uid : String) (team : Int) (pos : Position) : Unit :=
  { id := uid, name := uid, team := team, position := pos,
    hp := 100, maxHP := 100, ap := 6, maxAP := 6, mp := 4, maxMP := 4 }

/-- A caster and an enemy target on an empty board. -/
def worldFix : World :=
  { units := [mkUnitFix "caster1" 1 ⟨0, 0⟩, mkUnitFix "target1" 2 ⟨1, 1⟩],
    map := emptyMap10 }

/-- A damage-plus-drain multi-effect spell (the spec's cost-once
example); the damage kills the target, so the drain sub-effect finds no
live target. -/
def comboSpell : Spell :=
  { name := "Combo", cost := 3, range := 5, targetType := "enemy",
    effects := [{ type := "damage", value := 200 },
                { type := "drain_ap", value := 2, duration := some 1 }] }

/-- Like `worldFix` but with the target already dead: every sub-effect of
a damage spell fails. -/
def deadTargetWorldFix : World :=
  { units := [mkUnitFix "caster1" 1 ⟨0, 0⟩,
              { (mkUnitFix "target1" 2 ⟨1, 1⟩) with hp := 0 }],
    map := emptyMap10 }

/-- A costed damage spell with a cooldown (to observe that a failed cast
starts no cooldown). -/
def cooldownSpell : Spell :=
  { name := "S", cost := 3, range := 5, targetType := "enemy",
    cooldown := some 2,
    effects := [{ type := "damage", value := 5 }] }

/-- First buff application: `buff_ap` from source spell `Spell1`. -/
def buffStep1 : World × Bool :=
  BuffApEffect.apply 3 (some 2) (some "Spell1") "caster1" (some "target1") {} worldFix

/-- Re-application from the same source before expiry. -/
def buffStep2same : World × Bool :=
  BuffApEffect.apply 5 (some 3) (some "Spell1") "caster1" (some "target1") {} buffStep1.1

/-- Application from a different source spell while `Spell1`'s buff is
still active. -/
def buffStep2other : World × Bool :=
  BuffApEffect.apply 5 (some 3) (some "Spell2") "caster1" (some "target1") {} buffStep1.1

/-- A two-unit battle with one alive and one dead unit. -/
def tmFix : TurnManager :=
  { units := [mkUnitFix "caster1" 1 ⟨0, 0⟩,
              { (mkUnitFix "target1" 2 ⟨1, 1⟩) with hp := 0 }],
    currentIndex := 0, phase := "start" }

/-- An active `ap_loss` state with two turns remaining. -/
def apLossStateFix : State :=
  { id := "d", type := "ap_loss", duration := some 2, value := some 2 }

/-- A unit carrying an active `ap_loss` state with its restore flag still
set (the configuration deciding the `startTurn` restoration rule). -/
def apLossUnitFix : Unit :=
  { (mkUnitFix "u" 1 ⟨0, 0⟩) with ap := 0, states := [apLossStateFix] }

/-! ## Theorems -/

/-- C8.  The occupancy queries treat every out-of-bounds position as not
walkable / not occupied / no occupant, and they never throw: the only
table access (`cells[y][x]`) happens behind the short-circuiting
`inBounds` guard, and on a well-formed table every guarded access is
defined. -/
theorem mapGrid_out_of_bounds_queries :
    ∀ (g : MapGrid) (p q : Position),
      (g.inBounds p = false →
        g.isWalkable p = false ∧ g.isOccupied p = false ∧
        g.getOccupant p = none) ∧
      (g.wf → g.inBounds q = true → (g.cellAt? q).isSome = true) := by
  intro g p q
  constructor
  · intro h
    unfold MapGrid.isWalkable MapGrid.isOccupied MapGrid.getOccupant
    rw [h]
    exact ⟨rfl, rfl, rfl⟩
  · rintro ⟨hlen, hrow⟩ hin
    unfold MapGrid.inBounds at hin
    simp only [Bool.and_eq_true, decide_eq_true_eq] at hin
    obtain ⟨⟨⟨hx0, hxw⟩, hy0⟩, hyh⟩ := hin
    have hy : q.y.toNat < g.cells.length := by rw [hlen]; omega
    unfold MapGrid.cellAt? listGetInt
    rw [if_pos hy0, List.getElem?_eq_getElem hy]
    have hmem : g.cells[q.y.toNat] ∈ g.cells := List.getElem_mem hy
    have hx : q.x.toNat < (g.cells[q.y.toNat]).length := by
      rw [hrow _ hmem]; omega
    rw [Option.some_bind]
    rw [if_pos hx0, List.getElem?_eq_getElem hx]
    rfl

/-- C8 witness: a concrete out-of-bounds query and a concrete in-bounds
access on the empty 10×10 map. -/
theorem mapGrid_out_of_bounds_queries_witness :
    emptyMap10.isWalkable ⟨-1, 0⟩ = false ∧ emptyMap10.isOccupied ⟨-1, 0⟩ = false ∧
    emptyMap10.getOccupant ⟨-1, 0⟩ = none ∧ (emptyMap10.cellAt? ⟨3, 4⟩).isSome = true := by
  have h := mapGrid_out_of_bounds_queries emptyMap10 ⟨-1, 0⟩ ⟨3, 4⟩
  obtain ⟨h1, h2⟩ := h
  obtain ⟨ha, hb, hc⟩ := h1 (by decide)
  exact ⟨ha, hb, hc, h2 ⟨by decide, by decide⟩ (by decide)⟩

/-- C3 counterexample.  On the empty 10×10 board, `getReachableCells`
from the corner `(0,0)` with budget 2 returns 5 cells, not 12: the cell
`(0,-1)` is at Manhattan distance 1 from `(0,0)` but is not returned (nor
is any other off-board cell). -/
theorem reachable_corner_claim_false :
    grid10.getReachableCells ⟨0, 0⟩ 2 emptyMap10 = .ok reachFromCorner ∧
    reachFromCorner.length = 5 ∧ Position.mk 0 (-1) ∉ reachFromCorner := by
  refine ⟨by decide, by decide, by decide⟩

/-- C2 (code bug).  `BuffApEffect.apply` refuses a second buff from the
*same* source spell (returns `false`, one state remains), but a buff from
a *different* source passes the source check and then
`Unit.applyState`—whose non-stackable dedup is keyed by `type`
alone—removes the first buff: the two states never coexist, contradicting
the repository's own test `BuffApEffect.spec.ts`
("should allow stacking buffs from different sources"). -/
theorem buffAp_dedup_keyed_by_type_only :
    buffStep1.2 = true ∧
    buffStep2same.2 = false ∧
    ((buffStep2same.1.getUnit? "target1").map
        (fun t => t.states.map (fun s => (s.type, s.source)))
      = some [("buff_ap", some "Spell1")]) ∧
    buffStep2other.2 = true ∧
    ((buffStep2other.1.getUnit? "target1").map
        (fun t => t.states.map (fun s => (s.type, s.source)))
      = some [("buff_ap", some "Spell2")]) := by
  refine ⟨by decide, by decide, by decide, by decide, by decide⟩

/-- C7 counterexample.  A unit with an active `ap_loss` state and the
suppression flag still `true`: the claim's condition ("unless an `ap_loss`
state is present AND the flag is false") says the restore must happen, but
`startTurn` leaves `ap` at 0 — the code suppresses whenever the state is
present *or* the flag is false. -/
theorem startTurn_suppression_claim_false :
    apLossUnitFix.shouldRestoreAP = true ∧
    apLossUnitFix.hasState "ap_loss" = true ∧
    apLossUnitFix.maxAP = 6 ∧
    (apLossUnitFix.startTurn 4).ap = 0 := by
  refine ⟨by decide, by decide, by decide, by decide⟩

/-- `hasState` is an `any` over the state list (definitional). -/
lemma hasState_eq (u : Unit) (t : String) :
    u.hasState t = u.states.any (fun s => s.type = t) := rfl

/-- `updateStates` does not touch the restore flag. -/
lemma updSt_flag (u : Unit) (ph : String) :
    (u.updateStates ph).shouldRestoreAP = u.shouldRestoreAP := rfl

/-- `updateStates` does not touch `maxAP`. -/
lemma updSt_maxAP (u : Unit) (ph : String) :
    (u.updateStates ph).maxAP = u.maxAP := rfl

/-- C7 (amended).  `startTurn` restores `ap` to `maxAP` iff the
suppression flag is still set AND no `ap_loss` state survives the
start-phase state update (the spec's "present AND flag false" suppression
condition is actually "present OR flag false"); afterwards every active
`buff_ap` value is added on top.  The flag is reset to `true` by every
call, so one `preventAPRestore` blocks at most one restoration. -/
theorem startTurn_restore_rule :
    ∀ (u : Unit) (baseMP : Int),
      (u.startTurn baseMP).shouldRestoreAP = true ∧
      (u.startTurn baseMP).ap =
        (if u.shouldRestoreAP && !((u.updateStates "start").hasState "ap_loss")
         then u.maxAP else (u.updateStates "start").ap) +
        ((u.updateStates "start").states.filter (fun s => s.type = "buff_ap")).foldl
          (fun acc s => acc + s.value.getD 0) 0 := by
  intro u b
  refine ⟨rfl, ?_⟩
  simp only [Unit.startTurn, hasState_eq, updSt_flag, updSt_maxAP,
    apply_ite Unit.ap, apply_ite Unit.states, apply_ite Unit.maxAP,
    apply_ite Unit.shouldRestoreAP, ite_self]

/-- C10 counterexample.  A start position outside the board whose row
index is still in range: the search completes normally (the claim's
"total only under an in-bounds start" fails). -/
theorem bfs_oob_start_total_counterexample :
    grid10.inGrid ⟨15, 0⟩ = false ∧
    grid10.getReachableCells ⟨15, 0⟩ 2 emptyMap10 = .ok [] := by
  refine ⟨by decide, by decide⟩

/-- `listSetInt` preserves the length. -/
lemma listSetInt_length {α : Type} (l : List α) (i : Int) (a : α) :
    (listSetInt l i a).length = l.length := by
  unfold listSetInt; split <;> simp

/-- A row-in-range write succeeds and preserves the table's shape. -/
lemma writeV_some {v : Visited} {p : Position} (h0 : 0 ≤ p.y)
    (h1 : p.y < (List.length v : Int)) :
    ∃ v', writeV v p = some v' ∧ List.length v' = List.length v := by
  have hy : p.y.toNat < v.length := by omega
  unfold writeV listGetInt
  rw [if_pos h0, List.getElem?_eq_getElem hy]
  exact ⟨_, rfl, by simp [listSetInt_length]⟩

/-- A row-in-range read succeeds. -/
lemma readV_some {v : Visited} {p : Position} (h0 : 0 ≤ p.y)
    (h1 : p.y < (List.length v : Int)) :
    ∃ b, readV v p = some b := by
  have hy : p.y.toNat < v.length := by omega
  unfold readV listGetInt
  rw [if_pos h0, List.getElem?_eq_getElem hy]
  exact ⟨_, rfl⟩

/-- The direction loop of `getReachableCells` never makes an
out-of-bounds access on a full-height table (every read and write is
guarded by the grid bounds check), and it preserves the table's shape. -/
lemma reachExpand_some (g : Grid) (m : MapGrid) (pos : Position) (cost : Nat) :
    ∀ (ds : List (Int × Int)) (v : Visited), List.length v = g.height →
      ∃ v' ps, g.reachExpand m pos cost ds v = some (v', ps) ∧
        List.length v' = g.height := by
  intro ds
  induction ds with
  | nil => exact fun v hv => ⟨v, [], rfl, hv⟩
  | cons d ds ih =>
    intro v hv
    by_cases hg : g.inGrid (stepPos pos d)
    · have hy : 0 ≤ (stepPos pos d).y ∧ (stepPos pos d).y < (g.height : Int) := by
        unfold Grid.inGrid at hg
        simp only [Bool.and_eq_true, decide_eq_true_eq] at hg
        exact ⟨hg.1.2, hg.2⟩
      obtain ⟨seen, hr⟩ := readV_some hy.1 (by rw [hv]; exact_mod_cast hy.2)
      by_cases hfree : (!seen && m.freeB (stepPos pos d)) = true
      · obtain ⟨v1, hw, hlen1⟩ :=
          writeV_some (v := v) hy.1 (by rw [hv]; exact_mod_cast hy.2)
        obtain ⟨v', ps, hrec, hlen⟩ := ih v1 (hlen1.trans hv)
        refine ⟨v', ⟨stepPos pos d, cost + 1⟩ :: ps, ?_, hlen⟩
        simp only [Grid.reachExpand, hg, if_true, hr, hfree, hw, hrec]
      · obtain ⟨v', ps, hrec, hlen⟩ := ih v hv
        refine ⟨v', ps, ?_, hlen⟩
        simp only [Grid.reachExpand, hg, if_true, hr, hrec]
        rw [if_neg hfree]
    · obtain ⟨v', ps, hrec, hlen⟩ := ih v hv
      refine ⟨v', ps, ?_, hlen⟩
      simp only [Grid.reachExpand]
      rw [if_neg hg]
      exact hrec

/-- The queue loop of `getReachableCells` never reports an out-of-bounds
access on a full-height table. -/
lemma reachLoop_ne_oob (g : Grid) (m : MapGrid) (pm : Int) :
    ∀ (fuel : Nat) (q : List ReachEntry) (v : Visited) (acc : List Position),
      List.length v = g.height → g.reachLoop m pm fuel q v acc ≠ .oob := by
  intro fuel
  induction fuel with
  | zero => intro q v acc _; simp [Grid.reachLoop]
  | succ n ih =>
    intro q v acc hv
    match q with
    | [] => simp [Grid.reachLoop]
    | e :: rest =>
      obtain ⟨v', ps, hexp, hlen⟩ := reachExpand_some g m e.pos e.cost dirs v hv
      simp only [Grid.reachLoop, hexp]
      split
      · exact ih rest v _ hv
      · exact ih (rest ++ ps) v' _ hlen

/-- The direction loop of `findPath` never makes an out-of-bounds access
on a full-height table, and a continuing outcome preserves the shape. -/
lemma pathExpand_some (g : Grid) (m : MapGrid) (dst pos : Position)
    (path : List Position) (cost : Nat) :
    ∀ (ds : List (Int × Int)) (v : Visited), List.length v = g.height →
      ∃ r, g.pathExpand m dst pos path cost ds v = some r ∧
        ∀ v' ps, r = ExpandRes.cont v' ps → List.length v' = g.height := by
  intro ds
  induction ds with
  | nil =>
    intro v hv
    exact ⟨.cont v [], rfl, by rintro v' ps ⟨rfl, rfl⟩; exact hv⟩
  | cons d ds ih =>
    intro v hv
    by_cases hd : stepPos pos d = dst ∧ m.freeB (stepPos pos d) = true
    · refine ⟨.found ((path ++ [pos, stepPos pos d]).drop 1), ?_, by simp⟩
      simp only [Grid.pathExpand]
      rw [if_pos hd]
    · by_cases hg : g.inGrid (stepPos pos d)
      · have hy : 0 ≤ (stepPos pos d).y ∧ (stepPos pos d).y < (g.height : Int) := by
          unfold Grid.inGrid at hg
          simp only [Bool.and_eq_true, decide_eq_true_eq] at hg
          exact ⟨hg.1.2, hg.2⟩
        obtain ⟨seen, hr⟩ := readV_some hy.1 (by rw [hv]; exact_mod_cast hy.2)
        by_cases hfree : (!seen && m.freeB (stepPos pos d)) = true
        · obtain ⟨v1, hw, hlen1⟩ :=
            writeV_some (v := v) hy.1 (by rw [hv]; exact_mod_cast hy.2)
          obtain ⟨r, hrec, hcont⟩ := ih v1 (hlen1.trans hv)
          match r with
          | .found p =>
            refine ⟨.found p, ?_, by simp⟩
            simp only [Grid.pathExpand]
            rw [if_neg hd, if_pos hg]
            simp only [hr, hfree, if_true, hw, hrec]
          | .cont v2 ps =>
            refine ⟨.cont v2 (⟨stepPos pos d, path ++ [pos], cost + 1⟩ :: ps), ?_, ?_⟩
            · simp only [Grid.pathExpand]
              rw [if_neg hd, if_pos hg]
              simp only [hr, hfree, if_true, hw, hrec]
            · rintro v' ps' ⟨rfl, rfl⟩
              exact hcont v2 ps rfl
        · obtain ⟨r, hrec, hcont⟩ := ih v hv
          refine ⟨r, ?_, hcont⟩
          simp only [Grid.pathExpand]
          rw [if_neg hd, if_pos hg]
          simp only [hr]
          rw [if_neg hfree]
          exact hrec
      · obtain ⟨r, hrec, hcont⟩ := ih v hv
        refine ⟨r, ?_, hcont⟩
        simp only [Grid.pathExpand]
        rw [if_neg hd, if_neg hg]
        exact hrec

/-- The queue loop of `findPath` never reports an out-of-bounds access on
a full-height table. -/
lemma pathLoop_ne_oob (g : Grid) (m : MapGrid) (dst : Position) (maxCost : Int) :
    ∀ (fuel : Nat) (q : List PathEntry) (v : Visited),
      List.length v = g.height → g.pathLoop m dst maxCost fuel q v ≠ .oob := by
  intro fuel
  induction fuel with
  | zero => intro q v _; simp [Grid.pathLoop]
  | succ n ih =>
    intro q v hv
    match q with
    | [] => simp [Grid.pathLoop]
    | e :: rest =>
      obtain ⟨r, hexp, hcont⟩ := pathExpand_some g m dst e.pos e.path e.cost dirs v hv
      simp only [Grid.pathLoop, hexp]
      split
      · exact ih rest v hv
      · match r, hexp with
        | .found p, _ => simp
        | .cont v' ps, hexp => exact ih (rest ++ ps) v' (hcont v' ps rfl)

/-- The freshly allocated visited table has one row per board row. -/
lemma mkVisited_length (g : Grid) : List.length (mkVisited g) = g.height := by
  simp [mkVisited]

/-- C10 (amended).  Both searches index the `visited` table at the start
position before any bounds check, so they throw exactly when the start's
*row* index is out of range (an out-of-range column is absorbed by JS
array semantics, and `findPath` returns before the access when
`from == to`); for a start with an in-range row — in particular for every
in-bounds start — every subsequent table access is in bounds; and
`setOccupied` on any out-of-bounds position leaves the grid unchanged. -/
theorem bfs_start_row_guard :
    ∀ (g : Grid) (m : MapGrid) (p q dst : Position) (pm maxCost : Int)
      (occ : Option String),
      ((0 ≤ p.y ∧ p.y < (g.height : Int)) →
        g.getReachableCells p pm m ≠ .oob ∧ g.findPath p dst maxCost m ≠ .oob) ∧
      (¬(0 ≤ q.y ∧ q.y < (g.height : Int)) →
        g.getReachableCells q pm m = .oob ∧
        (q ≠ dst → g.findPath q dst maxCost m = .oob)) ∧
      (m.inBounds q = false → m.setOccupied q occ = m) := by
  intro g m p q dst pm maxCost occ
  refine ⟨?_, ?_, ?_⟩
  · rintro ⟨h0, h1⟩
    obtain ⟨v', hw, hlen⟩ :=
      writeV_some (v := mkVisited g) h0 (by rw [mkVisited_length]; exact h1)
    constructor
    · unfold Grid.getReachableCells
      rw [hw]
      exact reachLoop_ne_oob g m pm _ _ _ _ (hlen.trans (mkVisited_length g))
    · unfold Grid.findPath
      split
      · simp
      · rw [hw]
        exact pathLoop_ne_oob g m dst maxCost _ _ _ (hlen.trans (mkVisited_length g))
  · intro h
    have hrow : listGetInt (mkVisited g) q.y = none := by
      unfold listGetInt
      split
      · rename_i h0
        have : ¬ q.y.toNat < (mkVisited g).length := by
          rw [mkVisited_length]; omega
        exact List.getElem?_eq_none (by omega)
      · rfl
    have hw : writeV (mkVisited g) q = none := by
      unfold writeV; rw [hrow]
    constructor
    · unfold Grid.getReachableCells
      rw [hw]
    · intro hne
      unfold Grid.findPath
      rw [if_neg hne, hw]
  · intro h
    unfold MapGrid.setOccupied
    rw [h]
    simp

/-- C10 witness: the in-range and out-of-range guard cases and an
out-of-bounds `setOccupied`, all on the 10×10 fixture. -/
theorem bfs_start_row_guard_witness :
    grid10.getReachableCells ⟨0, 0⟩ 2 emptyMap10 ≠ .oob ∧
    grid10.getReachableCells ⟨0, -1⟩ 2 emptyMap10 = .oob ∧
    emptyMap10.setOccupied ⟨0, -1⟩ (some "caster1") = emptyMap10 := by
  have h := bfs_start_row_guard grid10 emptyMap10 ⟨0, 0⟩ ⟨0, -1⟩ ⟨3, 2⟩ 2 5
    (some "caster1")
  obtain ⟨h1, h2, h3⟩ := h
  exact ⟨(h1 (by decide)).1, (h2 (by decide)).1, h3 (by decide)⟩

/-- C3 (amended).  On the empty 10×10 board, `getReachableCells` from
`(0,0)` with budget 2 returns exactly the cells at Manhattan distance 1
or 2 that lie on the board — five cells, since the start is a corner. -/
theorem reachable_corner_exact :
    grid10.getReachableCells ⟨0, 0⟩ 2 emptyMap10 = .ok reachFromCorner ∧
    ∀ p : Position, p ∈ reachFromCorner ↔
      (grid10.inGrid p = true ∧
       1 ≤ p.x.natAbs + p.y.natAbs ∧ p.x.natAbs + p.y.natAbs ≤ 2) := by
  refine ⟨by decide, ?_⟩
  intro p
  constructor
  · intro hp
    simp only [reachFromCorner, List.mem_cons, List.not_mem_nil, or_false] at hp
    rcases hp with rfl | rfl | rfl | rfl | rfl <;>
      exact ⟨by decide, by decide, by decide⟩
  · rintro ⟨hin, h1, h2⟩
    rcases p with ⟨x, y⟩
    dsimp only at hin h1 h2
    simp only [Grid.inGrid, grid10, Bool.and_eq_true, decide_eq_true_eq] at hin
    obtain ⟨⟨⟨hx0, hxw⟩, hy0⟩, hyh⟩ := hin
    simp only [reachFromCorner, List.mem_cons, List.not_mem_nil, or_false,
      Position.mk.injEq]
    omega

/-- Looking up after mutating-by-id: with an id-preserving mutation, the
same object is found and the mutation is visible exactly on it. -/
lemma getUnit?_updateUnit (w : World) (vid : String) (f : Unit → Unit)
    (hid : ∀ u, (f u).id = u.id) (uid : String) :
    (w.updateUnit vid f).getUnit? uid =
      (w.getUnit? uid).map (fun u => if u.id = vid then f u else u) := by
  unfold World.updateUnit World.getUnit?
  simp only
  rw [List.find?_map]
  have hp : ∀ u : Unit,
      (decide ((if u.id = vid then f u else u).id = uid)) = decide (u.id = uid) := by
    intro u
    by_cases h : u.id = vid <;> simp [h, hid]
  have : (fun u => decide ((if u.id = vid then f u else u).id = uid)) =
      (fun u : Unit => decide (u.id = uid)) := funext hp
  simp only [Function.comp_def, hp]

/-- `find?` results satisfy the predicate: a found unit carries the id it
was looked up by. -/
lemma getUnit?_id {w : World} {uid : String} {u : Unit}
    (h : w.getUnit? uid = some u) : u.id = uid := by
  unfold World.getUnit? at h
  have := List.find?_some h
  simpa using this

/-- Changing the map leaves unit lookups alone. -/
lemma getUnit?_setMap (w : World) (m' : MapGrid) (uid : String) :
    (World.getUnit? { w with map := m' } uid) = w.getUnit? uid := rfl

/-- Generating a fresh state id leaves unit lookups alone. -/
lemma getUnit?_freshId (w : World) (base uid : String) :
    ((w.freshId base).2.getUnit? uid) = w.getUnit? uid := rfl

/-- The unit mutations performed by effects preserve the unit's id. -/
lemma takeDamage_id (v : Int) : ∀ u : Unit, (u.takeDamage v).id = u.id :=
  fun _ => rfl

/-- See `takeDamage_id`. -/
lemma heal_id (v : Int) : ∀ u : Unit, (u.heal v).id = u.id := fun _ => rfl

/-- See `takeDamage_id`. -/
lemma applyState_id (st : State) : ∀ u : Unit, (u.applyState st).id = u.id :=
  fun _ => rfl

/-- See `takeDamage_id`. -/
lemma loseAPfst_id (v : Int) : ∀ u : Unit, ((u.loseAP v).1).id = u.id :=
  fun _ => rfl

/-- See `takeDamage_id`. -/
lemma withAP_id (v : Int) :
    ∀ u : Unit, ({ u with ap := u.ap + v } : Unit).id = u.id := fun _ => rfl

/-- See `takeDamage_id`. -/
lemma withAPsub_id (v : Int) :
    ∀ u : Unit, ({ u with ap := u.ap - v } : Unit).id = u.id := fun _ => rfl

/-- See `takeDamage_id`. -/
lemma withPos_id (p : Position) :
    ∀ u : Unit, ({ u with position := p } : Unit).id = u.id := fun _ => rfl

/-- See `takeDamage_id`. -/
lemma updSt_id (u : Unit) (ph : String) : (u.updateStates ph).id = u.id := rfl

/-- See `takeDamage_id`. -/
lemma startTurn_id (b : Int) : ∀ u : Unit, (u.startTurn b).id = u.id := by
  intro u
  simp only [Unit.startTurn, apply_ite Unit.id, ite_self, updSt_id]

/-- See `takeDamage_id`. -/
lemma updateEnd_id : ∀ u : Unit, u.updateEndOfTurnStates.id = u.id :=
  fun _ => rfl

/-- See `takeDamage_id`. -/
lemma moveTo_id (path : List Position) : ∀ u : Unit, (u.moveTo path).id = u.id := by
  intro u
  simp only [Unit.moveTo]
  split
  · split <;> rfl
  · rfl

/-- Mutating a different id leaves a lookup alone. -/
lemma getUnit?_updateUnit_ne {w : World} {vid uid : String} (f : Unit → Unit)
    (hid : ∀ u, (f u).id = u.id) (hne : uid ≠ vid) :
    (w.updateUnit vid f).getUnit? uid = w.getUnit? uid := by
  rw [getUnit?_updateUnit w vid f hid uid]
  rcases h : w.getUnit? uid with _ | u
  · rfl
  · have := getUnit?_id h
    simp [this, hne]

/-- A single effect application never changes the caster's AP when the
effect's target is not the caster itself (teleport and push may move
units and rewrite occupancy, a buff may touch the target's states, but
the caster's AP is out of reach). -/
lemma applyEffect_caster_ap (config : SpellEffectConfig) (cid : String)
    (tid : Option String) (ctx : EffectContext) (w : World)
    (hne : tid ≠ some cid) :
    (((EffectEngine.applyEffect config cid tid ctx w).1.getUnit? cid).map Unit.ap)
      = ((w.getUnit? cid).map Unit.ap) := by
  unfold EffectEngine.applyEffect
  have htgt : ∀ (t : Unit), tid.bind w.getUnit? = some t → t.id ≠ cid := by
    rintro t ht hid
    rcases tid with _ | s
    · simp at ht
    · simp only [Option.bind_some] at ht
      have := getUnit?_id ht
      exact hne (by rw [← this, hid])
  rcases hc : EffectFactory.createEffect config with _ | e
  · rfl
  · cases e with
    | damageE v =>
      unfold IEffect.apply DamageEffect.apply
      simp only []
      rcases ht : tid.bind w.getUnit? with _ | t
      · rfl
      · simp only []
        split
        · simp only
          rw [getUnit?_updateUnit_ne _ (takeDamage_id v) (fun h => htgt t ht h.symm)]
        · rfl
    | healE v =>
      unfold IEffect.apply HealEffect.apply
      simp only []
      rcases ht : tid.bind w.getUnit? with _ | t
      · rfl
      · simp only []
        split
        · simp only
          rw [getUnit?_updateUnit_ne _ (heal_id v) (fun h => htgt t ht h.symm)]
        · rfl
    | buffApE v d src =>
      unfold IEffect.apply BuffApEffect.apply
      simp only []
      rcases ht : tid.bind w.getUnit? with _ | t
      · rfl
      · have hne' : cid ≠ t.id := fun h => htgt t ht h.symm
        simp only []
        split
        · rfl
        · split
          · rfl
          · simp only
            split
            · rename_i hself
              exact absurd hself.1 (htgt t ht)
            · rw [getUnit?_updateUnit_ne _ (applyState_id _) hne']
              rfl
    | drainApE v d =>
      unfold IEffect.apply DrainApEffect.apply
      simp only []
      rcases ht : tid.bind w.getUnit? with _ | t
      · rfl
      · have hne' : cid ≠ t.id := fun h => htgt t ht h.symm
        simp only []
        split
        · rfl
        · simp only
          rw [getUnit?_updateUnit_ne _ (applyState_id _) hne', getUnit?_freshId,
            getUnit?_updateUnit_ne _ (loseAPfst_id v) hne']
    | teleportE v =>
      unfold IEffect.apply TeleportEffect.apply
      simp only []
      split
      · rfl
      · split
        · rfl
        · split
          · rfl
          · rcases hcst : w.getUnit? cid with _ | c
            · simp [hcst]
            · simp only []
              rw [getUnit?_setMap]
              rw [getUnit?_updateUnit _ _ _ (withPos_id _)]
              rw [getUnit?_setMap, hcst]
              have := getUnit?_id hcst
              simp [this]
    | pushE v r =>
      unfold IEffect.apply PushEffect.apply
      simp only []
      rcases ht : tid.bind w.getUnit? with _ | t
      · rfl
      · have hne' : cid ≠ t.id := fun h => htgt t ht h.symm
        simp only []
        split
        · rfl
        · rcases hcst : w.getUnit? cid with _ | c
          · simp [hcst]
          · simp only []
            split
            · simp [hcst]
            · split
              · simp [hcst]
              · rw [getUnit?_setMap]
                rw [getUnit?_updateUnit_ne _ (withPos_id _) hne']
                rw [getUnit?_setMap, hcst]

/-- The effect loop's success flag only accumulates. -/
lemma applyEffectsLoop_acc (cid : String) (tid : Option String)
    (ctx : EffectContext) :
    ∀ (effects : List SpellEffectConfig) (w : World) (b : Bool),
      effects.foldl
        (fun acc config =>
          let r := EffectEngine.applyEffect config cid tid ctx acc.1
          (r.1, acc.2 || r.2)) (w, b)
      = ((EffectEngine.applyEffectsLoop effects cid tid ctx w).1,
         b || (EffectEngine.applyEffectsLoop effects cid tid ctx w).2) := by
  intro effects
  induction effects with
  | nil => intro w b; simp [EffectEngine.applyEffectsLoop]
  | cons e rest ih =>
    intro w b
    unfold EffectEngine.applyEffectsLoop
    simp only [List.foldl_cons]
    rw [ih _ (b || _), ih _ (false || _)]
    simp [Bool.or_assoc]

/-- The loop's outcome is the disjunction of the per-effect outcomes. -/
lemma applyEffectsLoop_any (cid : String) (tid : Option String)
    (ctx : EffectContext) :
    ∀ (effects : List SpellEffectConfig) (w : World),
      (EffectEngine.applyEffectsLoop effects cid tid ctx w).2
        = (EffectEngine.applyEffectsTrace effects cid tid ctx w).any id := by
  intro effects
  induction effects with
  | nil => intro w; rfl
  | cons e rest ih =>
    intro w
    unfold EffectEngine.applyEffectsLoop EffectEngine.applyEffectsTrace
    simp only [List.foldl_cons]
    rw [applyEffectsLoop_acc]
    simp [ih]

/-- The loop never changes the caster's AP when the target is not the
caster. -/
lemma applyEffectsLoop_caster_ap (cid : String) (tid : Option String)
    (ctx : EffectContext) (hne : tid ≠ some cid) :
    ∀ (effects : List SpellEffectConfig) (w : World),
      (((EffectEngine.applyEffectsLoop effects cid tid ctx w).1.getUnit? cid).map Unit.ap)
        = ((w.getUnit? cid).map Unit.ap) := by
  intro effects
  induction effects with
  | nil => intro w; rfl
  | cons e rest ih =>
    intro w
    unfold EffectEngine.applyEffectsLoop
    simp only [List.foldl_cons]
    rw [applyEffectsLoop_acc]
    simp only
    rw [ih, applyEffect_caster_ap e cid tid ctx w hne]

/-- Deducting zero AP is the identity mutation. -/
lemma updateUnit_sub_zero (w : World) (cid : String) :
    w.updateUnit cid (fun v => { v with ap := v.ap - 0 }) = w := by
  unfold World.updateUnit
  have : ∀ u : Unit, (if u.id = cid then { u with ap := u.ap - 0 } else u) = u := by
    intro u
    split <;> (try rfl)
    cases u
    simp
  rcases w with ⟨units, mp, ns⟩
  simp only [this, List.map_id']

/-- C1.  A cast with a non-empty effects list and sufficient AP deducts
exactly the cost from the caster, once, no matter how many sub-effects
succeed or fail (the target hypothesis excludes the caster itself, whose
AP a self-buff may additionally touch by design), and the cast returns
true iff at least one sub-effect actually applied (the per-effect
outcomes are `applyEffectsTrace`). -/
theorem cast_pays_cost_once :
    ∀ (sp : Spell) (cid : String) (tid : Option String) (ctx : EffectContext)
      (w : World) (u : Unit),
      w.getUnit? cid = some u →
      0 ≤ sp.cost → sp.cost ≤ u.ap →
      sp.effects ≠ [] →
      sp.actualTargetId cid tid ≠ some cid →
      (∃ u', (sp.cast cid tid ctx w).2.1.getUnit? cid = some u' ∧
        u'.ap = u.ap - sp.cost) ∧
      ((sp.cast cid tid ctx w).2.2 = true ↔
        true ∈ EffectEngine.applyEffectsTrace
          (sp.effects.map (fun e => { e with sourceSpell := some sp.name }))
          cid (sp.actualTargetId cid tid) ctx
          (w.updateUnit cid (fun v => { v with ap := v.ap - sp.cost }))) := by
  intro sp cid tid ctx w u hu hc0 hcap hne hnt
  have key : ∀ (effs : List SpellEffectConfig),
      (∃ u', (EffectEngine.applySpell ⟨effs, sp.cost⟩ cid
          (sp.actualTargetId cid tid) ctx w).1.getUnit? cid = some u' ∧
        u'.ap = u.ap - sp.cost) ∧
      ((EffectEngine.applySpell ⟨effs, sp.cost⟩ cid
          (sp.actualTargetId cid tid) ctx w).2 = true ↔
        true ∈ EffectEngine.applyEffectsTrace effs cid
          (sp.actualTargetId cid tid) ctx
          (w.updateUnit cid (fun v => { v with ap := v.ap - sp.cost }))) := by
    intro effs
    by_cases hpos : 0 < sp.cost
    · have happ : EffectEngine.applySpell ⟨effs, sp.cost⟩ cid
          (sp.actualTargetId cid tid) ctx w =
          EffectEngine.applyEffectsLoop effs cid (sp.actualTargetId cid tid) ctx
            (w.updateUnit cid (fun v => { v with ap := v.ap - sp.cost })) := by
        unfold EffectEngine.applySpell
        rw [if_pos hpos, hu]
        simp only []
        rw [if_neg (not_lt.mpr hcap)]
      rw [happ]
      constructor
      · have hmap := applyEffectsLoop_caster_ap cid (sp.actualTargetId cid tid)
          ctx hnt effs (w.updateUnit cid (fun v => { v with ap := v.ap - sp.cost }))
        rw [getUnit?_updateUnit _ _ _ (withAPsub_id sp.cost), hu] at hmap
        have hid := getUnit?_id hu
        simp only [Option.map_some', hid, eq_self_iff_true, if_true] at hmap
        rcases hres : (EffectEngine.applyEffectsLoop effs cid
            (sp.actualTargetId cid tid) ctx
            (w.updateUnit cid (fun v => { v with ap := v.ap - sp.cost }))).1.getUnit?
            cid with _ | u'
        · rw [hres] at hmap; simp at hmap
        · rw [hres] at hmap
          simp only [Option.map_some', Option.some.injEq] at hmap
          exact ⟨u', rfl, hmap⟩
      · rw [applyEffectsLoop_any]
        simp [List.any_eq_true]
    · have hzero : sp.cost = 0 := le_antisymm (not_lt.mp hpos) hc0
      have happ : EffectEngine.applySpell ⟨effs, sp.cost⟩ cid
          (sp.actualTargetId cid tid) ctx w =
          EffectEngine.applyEffectsLoop effs cid (sp.actualTargetId cid tid) ctx w := by
        unfold EffectEngine.applySpell
        rw [if_neg hpos]
      have hworld : w.updateUnit cid (fun v => { v with ap := v.ap - sp.cost }) = w := by
        rw [hzero]; exact updateUnit_sub_zero w cid
      rw [happ, hworld]
      constructor
      · have hmap := applyEffectsLoop_caster_ap cid (sp.actualTargetId cid tid)
          ctx hnt effs w
        rw [hu] at hmap
        rcases hres : (EffectEngine.applyEffectsLoop effs cid
            (sp.actualTargetId cid tid) ctx w).1.getUnit? cid with _ | u'
        · rw [hres] at hmap; simp at hmap
        · rw [hres] at hmap
          simp only [Option.map_some', Option.some.injEq] at hmap
          exact ⟨u', rfl, by rw [hmap, hzero]; ring⟩
      · rw [applyEffectsLoop_any]
        simp [List.any_eq_true]
  have hcast1 : (sp.cast cid tid ctx w).2.1 =
      (EffectEngine.applySpell
        ⟨sp.effects.map (fun e => { e with sourceSpell := some sp.name }), sp.cost⟩
        cid (sp.actualTargetId cid tid) ctx w).1 := rfl
  have hcast2 : (sp.cast cid tid ctx w).2.2 =
      (EffectEngine.applySpell
        ⟨sp.effects.map (fun e => { e with sourceSpell := some sp.name }), sp.cost⟩
        cid (sp.actualTargetId cid tid) ctx w).2 := rfl
  rw [hcast1, hcast2]
  exact key (sp.effects.map (fun e => { e with sourceSpell := some sp.name }))

/-- C1 witness: the damage-plus-drain spell cast by the fixture caster on
the fixture enemy pays its cost of 3 exactly once. -/
theorem cast_pays_cost_once_witness :
    ∃ u', ((comboSpell.cast "caster1" (some "target1") {} worldFix).2.1.getUnit?
        "caster1") = some u' ∧
      u'.ap = (mkUnitFix "caster1" 1 ⟨0, 0⟩).ap - comboSpell.cost :=
  (cast_pays_cost_once comboSpell "caster1" (some "target1") {} worldFix
    (mkUnitFix "caster1" 1 ⟨0, 0⟩) (by decide) (by decide) (by decide)
    (by decide) (by decide)).1

/-- A failed effect application changes nothing: every `false` path in
every effect class returns before any mutation. -/
lemma applyEffect_false_id (config : SpellEffectConfig) (cid : String)
    (tid : Option String) (ctx : EffectContext) (w w' : World)
    (h : EffectEngine.applyEffect config cid tid ctx w = (w', false)) :
    w' = w := by
  unfold EffectEngine.applyEffect at h
  rcases hc : EffectFactory.createEffect config with _ | e <;> rw [hc] at h
  · simp only [] at h
    injection h with h1 h2
    exact h1.symm
  · cases e <;> simp only [IEffect.apply] at h
    case damageE v =>
      unfold DamageEffect.apply at h
      repeat' split at h
      all_goals (injection h with h1 h2; first | exact h1.symm | cases h2)
    case healE v =>
      unfold HealEffect.apply at h
      repeat' split at h
      all_goals (injection h with h1 h2; first | exact h1.symm | cases h2)
    case buffApE v d src =>
      simp only [BuffApEffect.apply] at h
      repeat' split at h
      all_goals (injection h with h1 h2; first | exact h1.symm | cases h2)
    case drainApE v d =>
      simp only [DrainApEffect.apply] at h
      repeat' split at h
      all_goals (injection h with h1 h2; first | exact h1.symm | cases h2)
    case teleportE v =>
      simp only [TeleportEffect.apply] at h
      repeat' split at h
      all_goals (injection h with h1 h2; first | exact h1.symm | cases h2)
    case pushE v r =>
      simp only [PushEffect.apply] at h
      repeat' split at h
      all_goals (injection h with h1 h2; first | exact h1.symm | cases h2)

/-- If the whole effect loop reports `false`, no effect mutated the
world. -/
lemma applyEffectsLoop_false (cid : String) (tid : Option String)
    (ctx : EffectContext) :
    ∀ (effects : List SpellEffectConfig) (w w' : World),
      EffectEngine.applyEffectsLoop effects cid tid ctx w = (w', false) →
      w' = w := by
  intro effects
  induction effects with
  | nil =>
    intro w w' h
    unfold EffectEngine.applyEffectsLoop at h
    simp only [List.foldl_nil] at h
    injection h with h1 h2
    exact h1.symm
  | cons e rest ih =>
    intro w w' h
    unfold EffectEngine.applyEffectsLoop at h
    rw [List.foldl_cons] at h
    simp only [] at h
    rw [applyEffectsLoop_acc] at h
    injection h with h1 h2
    simp only [Bool.false_or, Bool.or_eq_false_iff] at h2
    have hfirst : EffectEngine.applyEffect e cid tid ctx w =
        ((EffectEngine.applyEffect e cid tid ctx w).1, false) := by
      rw [← h2.1]
    have hw1 := applyEffect_false_id e cid tid ctx w _ hfirst
    have hrest : EffectEngine.applyEffectsLoop rest cid tid ctx
        (EffectEngine.applyEffect e cid tid ctx w).1 =
        ((EffectEngine.applyEffectsLoop rest cid tid ctx
          (EffectEngine.applyEffect e cid tid ctx w).1).1, false) := by
      rw [← h2.2]
    have := ih _ _ hrest
    rw [← h1, this, hw1]

/-- C9.  A cast that passes the AP check but whose sub-effects all fail
is not atomic: it still deducts the cost (and changes nothing else), the
deduction is not rolled back, and no cooldown is started (the returned
spell is unchanged). -/
theorem cast_failure_not_rolled_back :
    ∀ (sp : Spell) (cid : String) (tid : Option String) (ctx : EffectContext)
      (w : World) (u : Unit),
      w.getUnit? cid = some u → 0 < sp.cost → sp.cost ≤ u.ap →
      (sp.cast cid tid ctx w).2.2 = false →
      (sp.cast cid tid ctx w).2.1 =
        w.updateUnit cid (fun v => { v with ap := v.ap - sp.cost }) ∧
      (sp.cast cid tid ctx w).1 = sp := by
  intro sp cid tid ctx w u hu hpos hcap hres
  have happ : EffectEngine.applySpell
      ⟨sp.effects.map (fun e => { e with sourceSpell := some sp.name }), sp.cost⟩
      cid (sp.actualTargetId cid tid) ctx w =
      EffectEngine.applyEffectsLoop
        (sp.effects.map (fun e => { e with sourceSpell := some sp.name }))
        cid (sp.actualTargetId cid tid) ctx
        (w.updateUnit cid (fun v => { v with ap := v.ap - sp.cost })) := by
    unfold EffectEngine.applySpell
    rw [if_pos hpos, hu]
    simp only []
    rw [if_neg (not_lt.mpr hcap)]
  have hcast1 : (sp.cast cid tid ctx w).2.1 =
      (EffectEngine.applySpell
        ⟨sp.effects.map (fun e => { e with sourceSpell := some sp.name }), sp.cost⟩
        cid (sp.actualTargetId cid tid) ctx w).1 := rfl
  have hcast2 : (sp.cast cid tid ctx w).2.2 =
      (EffectEngine.applySpell
        ⟨sp.effects.map (fun e => { e with sourceSpell := some sp.name }), sp.cost⟩
        cid (sp.actualTargetId cid tid) ctx w).2 := rfl
  rw [hcast2, happ] at hres
  constructor
  · rw [hcast1, happ]
    exact applyEffectsLoop_false cid (sp.actualTargetId cid tid) ctx _ _ _
      (by rw [← hres])
  · show (if (sp.cast cid tid ctx w).2.2 = true then _ else sp) = sp
    rw [hcast2, happ, hres]
    simp

/-- C9 witness: a costed, cooldown-carrying damage spell cast at an
already-dead target returns false, yet the caster has paid 3 AP and the
cooldown counter was never started. -/
theorem cast_failure_not_rolled_back_witness :
    (cooldownSpell.cast "caster1" (some "target1") {} deadTargetWorldFix).2.1 =
      deadTargetWorldFix.updateUnit "caster1"
        (fun v => { v with ap := v.ap - cooldownSpell.cost }) ∧
    (cooldownSpell.cast "caster1" (some "target1") {} deadTargetWorldFix).1 =
      cooldownSpell :=
  cast_failure_not_rolled_back cooldownSpell "caster1" (some "target1") {}
    deadTargetWorldFix (mkUnitFix "caster1" 1 ⟨0, 0⟩)
    (by decide) (by decide) (by decide) (by decide)

/-- `updateStates` does not touch `maxMP`. -/
lemma updSt_maxMP (u : Unit) (ph : String) :
    (u.updateStates ph).maxMP = u.maxMP := rfl

/-- The state-expiry fold keeps every surviving state's type and value,
and leaves the AP accumulator at a non-negative value (it only ever
overwrites it with `maxAP`). -/
lemma updStStep_cases (mA : Int) (ph : String) (s : State)
    (acc : List State × Int) :
    (∀ t ∈ (updateStatesStep mA ph s acc).1,
        (t.type = s.type ∧ t.value = s.value) ∨ t ∈ acc.1) ∧
    ((updateStatesStep mA ph s acc).2 = mA ∨
      (updateStatesStep mA ph s acc).2 = acc.2) := by
  by_cases hexp : s.expire.getD "start" = ph <;>
    rcases hd2 : s.duration with _ | d
  · simp only [updateStatesStep, if_pos hexp, hd2, Option.map_none']
    refine ⟨?_, Or.inr (by trivial)⟩
    intro t htm
    rcases List.mem_cons.mp htm with rfl | htm'
    · exact Or.inl ⟨rfl, rfl⟩
    · exact Or.inr htm'
  · simp only [updateStatesStep, if_pos hexp, hd2, Option.map_some']
    split
    · refine ⟨fun t htm => Or.inr htm, ?_⟩
      split
      · exact Or.inl (by trivial)
      · exact Or.inr (by trivial)
    · refine ⟨?_, Or.inr (by trivial)⟩
      intro t htm
      rcases List.mem_cons.mp htm with rfl | htm'
      · exact Or.inl ⟨rfl, rfl⟩
      · exact Or.inr htm'
  · simp only [updateStatesStep, if_neg hexp, hd2]
    refine ⟨?_, Or.inr (by trivial)⟩
    intro t htm
    rcases List.mem_cons.mp htm with rfl | htm'
    · exact Or.inl ⟨rfl, rfl⟩
    · exact Or.inr htm'
  · simp only [updateStatesStep, if_neg hexp, hd2]
    split
    · refine ⟨fun t htm => Or.inr htm, ?_⟩
      split
      · exact Or.inl (by trivial)
      · exact Or.inr (by trivial)
    · refine ⟨?_, Or.inr (by trivial)⟩
      intro t htm
      rcases List.mem_cons.mp htm with rfl | htm'
      · exact Or.inl ⟨rfl, rfl⟩
      · exact Or.inr htm'

/-- See `updStStep_cases`: the whole fold keeps surviving buff values and
a non-negative accumulator. -/
lemma updStStep_preserve (mA : Int) (ph : String) (hmA : 0 ≤ mA) :
    ∀ (l : List State) (acc : List State × Int),
      (∀ s ∈ acc.1, s.type = "buff_ap" → 0 ≤ s.value.getD 0) → 0 ≤ acc.2 →
      (∀ s ∈ l, s.type = "buff_ap" → 0 ≤ s.value.getD 0) →
      (∀ s ∈ (l.foldr (updateStatesStep mA ph) acc).1,
        s.type = "buff_ap" → 0 ≤ s.value.getD 0) ∧
      0 ≤ (l.foldr (updateStatesStep mA ph) acc).2 := by
  intro l
  induction l with
  | nil => intro acc ha hacc _; exact ⟨ha, hacc⟩
  | cons s l ih =>
    intro acc ha hacc hl
    have hrec := ih acc ha hacc (fun t ht => hl t (List.mem_cons_of_mem s ht))
    rw [List.foldr_cons]
    obtain ⟨hmem, hap⟩ := updStStep_cases mA ph s (l.foldr (updateStatesStep mA ph) acc)
    constructor
    · intro t htm
      rcases hmem t htm with ⟨hty, hvl⟩ | hin
      · intro hb
        rw [hvl]
        exact hl s (List.mem_cons_self s l) (hty ▸ hb)
      · exact hrec.1 t hin
    · rcases hap with h | h <;> rw [h]
      · exact hmA
      · exact hrec.2

/-- `updateStates` preserves unit well-formedness. -/
lemma wf_updateStates (u : Unit) (ph : String) (h : u.wf) :
    (u.updateStates ph).wf := by
  obtain ⟨h1, h2, h3, h4, h5⟩ := h
  have aux := updStStep_preserve u.maxAP ph h3 u.states ([], u.ap)
    (by intro s hs; cases hs) h1 h5
  exact ⟨aux.2, h2, h3, h4, aux.1⟩

/-- `startTurn` leaves the state list exactly as the start-phase expiry
produced it. -/
lemma startTurn_states (u : Unit) (b : Int) :
    (u.startTurn b).states = (u.updateStates "start").states := by
  simp only [Unit.startTurn, apply_ite Unit.states, ite_self]

/-- The AP produced by `startTurn` (same computation `C7`'s rule states). -/
lemma startTurn_ap_formula (u : Unit) (b : Int) :
    (u.startTurn b).ap =
      (if u.shouldRestoreAP && !((u.updateStates "start").hasState "ap_loss")
       then u.maxAP else (u.updateStates "start").ap) +
      ((u.updateStates "start").states.filter (fun s => s.type = "buff_ap")).foldl
        (fun acc s => acc + s.value.getD 0) 0 := by
  simp only [Unit.startTurn, hasState_eq, updSt_flag, updSt_maxAP,
    apply_ite Unit.ap, apply_ite Unit.states, apply_ite Unit.maxAP,
    apply_ite Unit.shouldRestoreAP, ite_self]

/-- The MP produced by `startTurn`: `maxMP` unless an `mp_loss` state is
active, in which case the raw `baseMP` remains. -/
lemma startTurn_mp_formula (u : Unit) (b : Int) :
    (u.startTurn b).mp =
      if !((u.updateStates "start").hasState "mp_loss") then u.maxMP else b := by
  simp only [Unit.startTurn, hasState_eq, updSt_maxMP,
    apply_ite Unit.mp, apply_ite Unit.states, apply_ite Unit.maxMP,
    ite_self]

/-- `startTurn` keeps both caps. -/
lemma startTurn_maxAP (u : Unit) (b : Int) : (u.startTurn b).maxAP = u.maxAP := by
  simp only [Unit.startTurn, apply_ite Unit.maxAP, ite_self, updSt_maxAP]

/-- See `startTurn_maxAP`. -/
lemma startTurn_maxMP (u : Unit) (b : Int) : (u.startTurn b).maxMP = u.maxMP := by
  simp only [Unit.startTurn, apply_ite Unit.maxMP, ite_self, updSt_maxMP]

/-- Summing non-negative buff values from a non-negative start stays
non-negative. -/
lemma foldl_buffSum_nonneg :
    ∀ (l : List State) (acc : Int), 0 ≤ acc →
      (∀ s ∈ l, 0 ≤ s.value.getD 0) →
      0 ≤ l.foldl (fun acc s => acc + s.value.getD 0) acc := by
  intro l
  induction l with
  | nil => intro acc h _; exact h
  | cons s l ih =>
    intro acc h hl
    rw [List.foldl_cons]
    exact ih _ (add_nonneg h (hl s (List.mem_cons_self s l)))
      (fun t ht => hl t (List.mem_cons_of_mem s ht))

/-- `startTurn` with a non-negative base MP preserves well-formedness. -/
lemma wf_startTurn (u : Unit) (b : Int) (hb : 0 ≤ b) (h : u.wf) :
    (u.startTurn b).wf := by
  have hupd := wf_updateStates u "start" h
  refine ⟨?_, ?_, ?_, ?_, ?_⟩
  · rw [startTurn_ap_formula]
    have hsum : 0 ≤ ((u.updateStates "start").states.filter
        (fun s => s.type = "buff_ap")).foldl
        (fun acc s => acc + s.value.getD 0) 0 := by
      refine foldl_buffSum_nonneg _ 0 le_rfl ?_
      intro s hs
      have hmem := List.mem_filter.mp hs
      exact hupd.2.2.2.2 s hmem.1 (by simp at hmem; exact hmem.2)
    refine add_nonneg ?_ hsum
    split
    · exact h.2.2.1
    · exact hupd.1
  · rw [startTurn_mp_formula]
    split
    · exact h.2.2.2.1
    · exact hb
  · rw [startTurn_maxAP]; exact h.2.2.1
  · rw [startTurn_maxMP]; exact h.2.2.2.1
  · rw [startTurn_states]; exact hupd.2.2.2.2

/-- `updateEndOfTurnStates` preserves well-formedness (the recomputation
clamps both resources at 0). -/
lemma wf_updateEnd (u : Unit) (h : u.wf) : u.updateEndOfTurnStates.wf := by
  have hupd := wf_updateStates u "end" h
  exact ⟨le_max_left 0 _, le_max_left 0 _, h.2.2.1, h.2.2.2.1, hupd.2.2.2.2⟩

/-- `moveTo` consumes at most the available MP. -/
lemma wf_moveTo (u : Unit) (path : List Position) (h : u.wf) :
    (u.moveTo path).wf := by
  simp only [Unit.moveTo]
  split
  · split
    · refine ⟨h.1, ?_, h.2.2.1, h.2.2.2.1, h.2.2.2.2⟩
      have hmin : min ((path.length : Int)) u.mp ≤ u.mp := min_le_right _ _
      exact sub_nonneg.mpr hmin
    · exact h
  · exact h

/-- See `wf_moveTo`: the clamped AP-loss primitive. -/
lemma wf_loseAP (u : Unit) (v : Int) (h : u.wf) : ((u.loseAP v).1).wf :=
  ⟨le_max_left 0 _, h.2.1, h.2.2.1, h.2.2.2.1, h.2.2.2.2⟩

/-- `applyState` with a benign state preserves well-formedness. -/
lemma wf_applyState (u : Unit) (st : State)
    (hst : st.type = "buff_ap" → 0 ≤ st.value.getD 0) (h : u.wf) :
    (u.applyState st).wf := by
  refine ⟨h.1, h.2.1, h.2.2.1, h.2.2.2.1, ?_⟩
  intro s hs
  simp only [Unit.applyState] at hs
  rcases List.mem_append.mp hs with h1 | h1
  · split at h1
    · exact h.2.2.2.2 s (List.mem_of_mem_filter h1)
    · exact h.2.2.2.2 s h1
  · rcases List.mem_singleton.mp h1 with rfl
    exact hst

/-- `updateUnit` with a wf-preserving mutation preserves world unit
well-formedness. -/
lemma wfUnits_updateUnit (w : World) (vid : String) (f : Unit → Unit)
    (hf : ∀ u, u.wf → (f u).wf) (hw : w.wfUnits) :
    (w.updateUnit vid f).wfUnits := by
  intro u hu
  unfold World.updateUnit at hu
  simp only [List.mem_map] at hu
  obtain ⟨v, hv, rfl⟩ := hu
  split
  · exact hf v (hw v hv)
  · exact hw v hv

/-- An id-preserving mutation preserves id distinctness. -/
lemma dupFree_updateUnit (w : World) (vid : String) (f : Unit → Unit)
    (hid : ∀ u, (f u).id = u.id) (hd : w.dupFree) :
    (w.updateUnit vid f).dupFree := by
  unfold World.dupFree World.updateUnit
  refine List.Pairwise.map _ ?_ hd
  intro a b hab
  by_cases ha : a.id = vid <;> by_cases hb : b.id = vid
  · exact absurd (ha.trans hb.symm) hab
  · rw [if_pos ha, if_neg hb, hid a]; exact hab
  · rw [if_neg ha, if_pos hb, hid b]; exact hab
  · rw [if_neg ha, if_neg hb]; exact hab

/-- With distinct ids, a found unit is the only member carrying its id. -/
lemma id_unique {w : World} {uid : String} {c : Unit} (hd : w.dupFree)
    (hc : w.getUnit? uid = some c) :
    ∀ u ∈ w.units, u.id = uid → u = c := by
  intro u hu hid
  by_contra hne
  have hmemc : c ∈ w.units := List.mem_of_find?_eq_some hc
  have hcid : c.id = uid := getUnit?_id hc
  have hsymm : Symmetric (fun a b : Unit => a.id ≠ b.id) :=
    fun a b h => fun e => h e.symm
  exact (List.Pairwise.forall hsymm hd hu hmemc hne) (hid.trans hcid.symm)

/-- Factory inversion: only a `buff_ap` config builds a buff effect, and
it carries the config's value. -/
lemma createEffect_buffApE {config : SpellEffectConfig} {v : Int}
    {d : Option Int} {src : Option String}
    (h : EffectFactory.createEffect config = some (.buffApE v d src)) :
    config.type = "buff_ap" ∧ v = config.value := by
  unfold EffectFactory.createEffect at h
  split at h <;> simp_all

/-- One effect application preserves unit well-formedness and id
distinctness, provided a buff config carries a non-negative value. -/
lemma applyEffect_unitsOK (config : SpellEffectConfig) (cid : String)
    (tid : Option String) (ctx : EffectContext) (w : World)
    (hcfg : config.type = "buff_ap" → 0 ≤ config.value)
    (hw : w.wfUnits) (hd : w.dupFree) :
    (EffectEngine.applyEffect config cid tid ctx w).1.wfUnits ∧
    (EffectEngine.applyEffect config cid tid ctx w).1.dupFree := by
  unfold EffectEngine.applyEffect
  rcases hc : EffectFactory.createEffect config with _ | e
  · exact ⟨hw, hd⟩
  · cases e with
    | damageE v =>
      unfold IEffect.apply DamageEffect.apply
      simp only []
      rcases ht : tid.bind w.getUnit? with _ | t
      · exact ⟨hw, hd⟩
      · simp only []
        split
        · exact ⟨wfUnits_updateUnit w t.id _ (fun u hu => hu) hw,
            dupFree_updateUnit w t.id _ (takeDamage_id v) hd⟩
        · exact ⟨hw, hd⟩
    | healE v =>
      unfold IEffect.apply HealEffect.apply
      simp only []
      rcases ht : tid.bind w.getUnit? with _ | t
      · exact ⟨hw, hd⟩
      · simp only []
        split
        · refine ⟨wfUnits_updateUnit w t.id _ (fun u hu => ?_) hw,
            dupFree_updateUnit w t.id _ (heal_id v) hd⟩
          exact ⟨hu.1, hu.2.1, hu.2.2.1, hu.2.2.2.1, hu.2.2.2.2⟩
        · exact ⟨hw, hd⟩
    | buffApE v d src =>
      have hv : 0 ≤ v := by
        obtain ⟨hty, hvv⟩ := createEffect_buffApE hc
        rw [hvv]
        exact hcfg hty
      unfold IEffect.apply BuffApEffect.apply
      simp only []
      rcases ht : tid.bind w.getUnit? with _ | t
      · exact ⟨hw, hd⟩
      · simp only []
        split
        · exact ⟨hw, hd⟩
        · split
          · exact ⟨hw, hd⟩
          · simp only []
            split
            · refine ⟨?_, ?_⟩
              · refine wfUnits_updateUnit _ t.id _ (fun u hu => ?_)
                  (wfUnits_updateUnit _ t.id _ (fun u hu => ?_) hw)
                · exact ⟨add_nonneg hu.1 hv, hu.2.1, hu.2.2.1, hu.2.2.2.1,
                    hu.2.2.2.2⟩
                · refine wf_applyState u _ (fun _ => ?_) hu
                  exact hv
              · exact dupFree_updateUnit _ t.id _ (withAP_id v)
                  (dupFree_updateUnit _ t.id _ (applyState_id _) hd)
            · refine ⟨?_, ?_⟩
              · refine wfUnits_updateUnit _ t.id _ (fun u hu => ?_) hw
                refine wf_applyState u _ (fun _ => ?_) hu
                exact hv
              · exact dupFree_updateUnit _ t.id _ (applyState_id _) hd
    | drainApE v d =>
      unfold IEffect.apply DrainApEffect.apply
      simp only []
      rcases ht : tid.bind w.getUnit? with _ | t
      · exact ⟨hw, hd⟩
      · simp only []
        split
        · exact ⟨hw, hd⟩
        · have h1w := wfUnits_updateUnit w t.id _ (fun u hu => wf_loseAP u v hu) hw
          have h1d := dupFree_updateUnit w t.id _ (loseAPfst_id v) hd
          refine ⟨wfUnits_updateUnit _ t.id _
              (fun u hu => wf_applyState u _ (fun habs => absurd habs (by simp)) hu) h1w,
            dupFree_updateUnit _ t.id _ (applyState_id _) h1d⟩
    | teleportE v =>
      unfold IEffect.apply TeleportEffect.apply
      simp only []
      split
      · exact ⟨hw, hd⟩
      · split
        · exact ⟨hw, hd⟩
        · split
          · exact ⟨hw, hd⟩
          · rcases hcst : w.getUnit? cid with _ | c
            · exact ⟨hw, hd⟩
            · simp only []
              refine ⟨wfUnits_updateUnit _ cid _ (fun u hu => hu) hw,
                dupFree_updateUnit _ cid _ (withPos_id _) hd⟩
    | pushE v r =>
      unfold IEffect.apply PushEffect.apply
      simp only []
      rcases ht : tid.bind w.getUnit? with _ | t
      · exact ⟨hw, hd⟩
      · simp only []
        split
        · exact ⟨hw, hd⟩
        · rcases hcst : w.getUnit? cid with _ | c
          · exact ⟨hw, hd⟩
          · simp only []
            split
            · exact ⟨hw, hd⟩
            · split
              · exact ⟨hw, hd⟩
              · refine ⟨wfUnits_updateUnit _ t.id _ (fun u hu => hu) hw,
                  dupFree_updateUnit _ t.id _ (withPos_id _) hd⟩

/-- The effect loop preserves unit well-formedness and id distinctness. -/
lemma applyEffectsLoop_unitsOK (cid : String) (tid : Option String)
    (ctx : EffectContext) :
    ∀ (effects : List SpellEffectConfig) (w : World),
      (∀ e ∈ effects, e.type = "buff_ap" → 0 ≤ e.value) →
      w.wfUnits → w.dupFree →
      (EffectEngine.applyEffectsLoop effects cid tid ctx w).1.wfUnits ∧
      (EffectEngine.applyEffectsLoop effects cid tid ctx w).1.dupFree := by
  intro effects
  induction effects with
  | nil => intro w _ hw hd; exact ⟨hw, hd⟩
  | cons e rest ih =>
    intro w hcfg hw hd
    unfold EffectEngine.applyEffectsLoop
    rw [List.foldl_cons]
    simp only []
    rw [applyEffectsLoop_acc]
    have hstep := applyEffect_unitsOK e cid tid ctx w
      (hcfg e (List.mem_cons_self e rest)) hw hd
    exact ih _ (fun x hx => hcfg x (List.mem_cons_of_mem e hx)) hstep.1 hstep.2

/-- `applySpell` preserves unit well-formedness and id distinctness: the
single cost deduction happens only after the AP check. -/
lemma applySpell_unitsOK (spell : SpellCosted) (cid : String)
    (tid : Option String) (ctx : EffectContext) (w : World)
    (hcfg : ∀ e ∈ spell.effects, e.type = "buff_ap" → 0 ≤ e.value)
    (hw : w.wfUnits) (hd : w.dupFree) :
    (EffectEngine.applySpell spell cid tid ctx w).1.wfUnits ∧
    (EffectEngine.applySpell spell cid tid ctx w).1.dupFree := by
  unfold EffectEngine.applySpell
  split
  · rcases hcst : w.getUnit? cid with _ | c
    · exact ⟨hw, hd⟩
    · simp only []
      split
      · exact ⟨hw, hd⟩
      · rename_i hap
        have hdw : (w.updateUnit cid
            (fun u => { u with ap := u.ap - spell.cost })).wfUnits := by
          intro u hu
          unfold World.updateUnit at hu
          simp only [List.mem_map] at hu
          obtain ⟨x, hx, rfl⟩ := hu
          split
          · rename_i hxid
            have hxc : x = c := id_unique hd hcst x hx hxid
            have hcwf := hw c (List.mem_of_find?_eq_some hcst)
            subst hxc
            refine ⟨?_, hcwf.2.1, hcwf.2.2.1, hcwf.2.2.2.1, hcwf.2.2.2.2⟩
            have : spell.cost ≤ x.ap := not_lt.mp hap
            exact sub_nonneg.mpr this
          · exact hw x hx
        have hdd := dupFree_updateUnit w cid _ (withAPsub_id spell.cost) hd
        exact applyEffectsLoop_unitsOK cid tid ctx spell.effects _ hcfg hdw hdd
  · exact applyEffectsLoop_unitsOK cid tid ctx spell.effects w hcfg hw hd

/-- `Spell.cast` preserves unit well-formedness and id distinctness. -/
lemma cast_unitsOK (sp : Spell) (cid : String) (tid : Option String)
    (ctx : EffectContext) (w : World) (hcfg : sp.contentWF)
    (hw : w.wfUnits) (hd : w.dupFree) :
    (sp.cast cid tid ctx w).2.1.wfUnits ∧ (sp.cast cid tid ctx w).2.1.dupFree := by
  have hcast : (sp.cast cid tid ctx w).2.1 =
      (EffectEngine.applySpell
        ⟨sp.effects.map (fun e => { e with sourceSpell := some sp.name }), sp.cost⟩
        cid (sp.actualTargetId cid tid) ctx w).1 := rfl
  rw [hcast]
  refine applySpell_unitsOK _ cid _ ctx w ?_ hw hd
  intro e he
  simp only [List.mem_map] at he
  obtain ⟨x, hx, rfl⟩ := he
  exact hcfg x hx

/-- C6.  Starting from a well-formed world (non-negative resources and
caps, benign buff values, distinct unit ids), every sequence of casts,
moves, turn-boundary state expiries and clamped AP losses keeps
`ap ≥ 0` and `mp ≥ 0` for every unit.  Since the command list is
arbitrary, this holds after every prefix, i.e. after every operation. -/
theorem resources_stay_nonneg :
    ∀ (ops : List BattleOp) (w : World),
      w.wfUnits → w.dupFree → (∀ op ∈ ops, op.wfOp) →
      ∀ u ∈ (runOps w ops).units, 0 ≤ u.ap ∧ 0 ≤ u.mp := by
  have main : ∀ (ops : List BattleOp) (w : World),
      w.wfUnits → w.dupFree → (∀ op ∈ ops, op.wfOp) →
      (runOps w ops).wfUnits ∧ (runOps w ops).dupFree := by
    intro ops
    induction ops with
    | nil => intro w hw hd _; exact ⟨hw, hd⟩
    | cons op rest ih =>
      intro w hw hd hops
      have hop := hops op (List.mem_cons_self op rest)
      have hstep : (BattleOp.step w op).wfUnits ∧ (BattleOp.step w op).dupFree := by
        cases op with
        | castOp sp cid tid ctx => exact cast_unitsOK sp cid tid ctx w hop hw hd
        | moveOp uid path =>
          exact ⟨wfUnits_updateUnit w uid _ (fun u hu => wf_moveTo u path hu) hw,
            dupFree_updateUnit w uid _ (moveTo_id path) hd⟩
        | startTurnOp uid =>
          exact ⟨wfUnits_updateUnit w uid _
              (fun u hu => wf_startTurn u 4 (by norm_num) hu) hw,
            dupFree_updateUnit w uid _ (startTurn_id 4) hd⟩
        | endTurnStatesOp uid =>
          exact ⟨wfUnits_updateUnit w uid _ (fun u hu => wf_updateEnd u hu) hw,
            dupFree_updateUnit w uid _ updateEnd_id hd⟩
        | loseAPOp uid amount =>
          exact ⟨wfUnits_updateUnit w uid _ (fun u hu => wf_loseAP u amount hu) hw,
            dupFree_updateUnit w uid _ (loseAPfst_id amount) hd⟩
      exact ih _ hstep.1 hstep.2 (fun x hx => hops x (List.mem_cons_of_mem op hx))
  intro ops w hw hd hops u hu
  have := (main ops w hw hd hops).1 u hu
  exact ⟨this.1, this.2.1⟩

/-- C6 witness: a concrete sequence — the combo cast, a two-cell move, an
end-of-turn recomputation and an oversized AP loss — leaves both fixture
units with non-negative AP and MP. -/
theorem resources_stay_nonneg_witness :
    worldFix.wfUnits ∧ worldFix.dupFree ∧
    (∀ op ∈ [BattleOp.castOp comboSpell "caster1" (some "target1") {},
       BattleOp.moveOp "caster1" [⟨0, 1⟩, ⟨0, 2⟩],
       BattleOp.endTurnStatesOp "target1",
       BattleOp.loseAPOp "caster1" 99], op.wfOp) ∧
    (∀ u ∈ (runOps worldFix
      [BattleOp.castOp comboSpell "caster1" (some "target1") {},
       BattleOp.moveOp "caster1" [⟨0, 1⟩, ⟨0, 2⟩],
       BattleOp.endTurnStatesOp "target1",
       BattleOp.loseAPOp "caster1" 99]).units, 0 ≤ u.ap ∧ 0 ≤ u.mp) := by
  have hwf : worldFix.wfUnits := by
    intro u hu
    simp only [worldFix, List.mem_cons, List.not_mem_nil, or_false] at hu
    rcases hu with rfl | rfl <;> exact ⟨by decide, by decide, by decide, by decide,
      by intro s hs; cases hs⟩
  have hdup : worldFix.dupFree := by
    unfold World.dupFree worldFix
    simp only []
    refine List.pairwise_cons.mpr ⟨?_, List.pairwise_cons.mpr ⟨?_, List.Pairwise.nil⟩⟩
    · intro b hb
      simp only [List.mem_cons, List.not_mem_nil, or_false] at hb
      subst hb
      decide
    · intro b hb
      cases hb
  have hops : ∀ op ∈ [BattleOp.castOp comboSpell "caster1" (some "target1") {},
       BattleOp.moveOp "caster1" [⟨0, 1⟩, ⟨0, 2⟩],
       BattleOp.endTurnStatesOp "target1",
       BattleOp.loseAPOp "caster1" 99], op.wfOp := by
    intro op hop
    simp only [List.mem_cons, List.not_mem_nil, or_false] at hop
    rcases hop with rfl | rfl | rfl | rfl
    · intro e he
      simp only [comboSpell, List.mem_cons, List.not_mem_nil, or_false] at he
      rcases he with rfl | rfl <;> decide
    · trivial
    · trivial
    · trivial
  exact ⟨hwf, hdup, hops, resources_stay_nonneg _ worldFix hwf hdup hops⟩

/-- `updateStates` does not touch `hp`. -/
lemma updSt_hp (u : Unit) (ph : String) : (u.updateStates ph).hp = u.hp := rfl

/-- `startTurn` never changes HP. -/
lemma startTurn_hp (u : Unit) (b : Int) : (u.startTurn b).hp = u.hp := by
  simp only [Unit.startTurn, apply_ite Unit.hp, ite_self, updSt_hp]

/-- `startTurn` never changes aliveness. -/
lemma startTurn_alive (u : Unit) (b : Int) :
    (u.startTurn b).isAlive = u.isAlive := by
  unfold Unit.isAlive
  rw [startTurn_hp]

/-- A found current unit is alive and sits at the returned index. -/
lemma currentLoop_sound (units : List Unit) :
    ∀ (n idx : Nat) (u : Unit),
      (TurnManager.currentLoop units n idx).2 = some u →
      u.isAlive = true ∧
      units[(TurnManager.currentLoop units n idx).1]? = some u := by
  intro n
  induction n with
  | zero => intro idx u h; cases h
  | succ m ih =>
    intro idx u h
    unfold TurnManager.currentLoop at h ⊢
    rcases hg : units[idx]? with _ | u0
    · rw [hg] at h
      exact Option.noConfusion h
    · rw [hg] at h
      simp only [] at h ⊢
      by_cases ha : u0.isAlive = true
      · rw [if_pos ha] at h ⊢
        simp only [] at h
        cases h
        exact ⟨ha, hg⟩
      · rw [if_neg ha] at h ⊢
        exact ih _ u h

/-- The scan keeps its index below the length. -/
lemma currentLoop_idx_lt (units : List Unit) :
    ∀ (n idx : Nat), idx < units.length →
      (TurnManager.currentLoop units n idx).1 < units.length := by
  intro n
  induction n with
  | zero => intro idx h; exact h
  | succ m ih =>
    intro idx h
    have hlen : 0 < units.length := by omega
    unfold TurnManager.currentLoop
    rcases hg : units[idx]? with _ | u0
    · exact h
    · simp only []
      split
      · exact h
      · exact ih _ (Nat.mod_lt _ hlen)

/-- If some offset within the fuel hits an alive unit, the scan finds an
alive unit. -/
lemma currentLoop_finds (units : List Unit) :
    ∀ (n idx : Nat), idx < units.length →
      (∃ k < n, ∃ u, units[(idx + k) % units.length]? = some u ∧
        u.isAlive = true) →
      ∃ u, (TurnManager.currentLoop units n idx).2 = some u ∧
        u.isAlive = true := by
  intro n
  induction n with
  | zero =>
    rintro idx _ ⟨k, hk, _⟩
    omega
  | succ m ih =>
    rintro idx hidx ⟨k, hk, u, hu, hal⟩
    have hg : units[idx]? = some units[idx] := List.getElem?_eq_getElem hidx
    unfold TurnManager.currentLoop
    rw [hg]
    simp only []
    by_cases ha : (units[idx]).isAlive = true
    · rw [if_pos ha]
      exact ⟨units[idx], rfl, ha⟩
    · rw [if_neg ha]
      rcases k with _ | k'
      · exfalso
        rw [Nat.add_zero, Nat.mod_eq_of_lt hidx, hg] at hu
        cases hu
        exact ha hal
      · have hlen : 0 < units.length := by omega
        refine ih ((idx + 1) % units.length) (Nat.mod_lt _ hlen) ?_
        refine ⟨k', by omega, u, ?_, hal⟩
        rw [Nat.mod_add_mod]
        have : idx + 1 + k' = idx + (k' + 1) := by omega
        rw [this]
        exact hu

/-- With every unit dead, the scan reports no unit. -/
lemma currentLoop_none (units : List Unit)
    (hdead : ∀ u ∈ units, u.isAlive = false) :
    ∀ (n idx : Nat), (TurnManager.currentLoop units n idx).2 = none := by
  intro n
  induction n with
  | zero => intro idx; rfl
  | succ m ih =>
    intro idx
    unfold TurnManager.currentLoop
    rcases hg : units[idx]? with _ | u0
    · rfl
    · have hmem : u0 ∈ units := by
        rcases List.getElem?_eq_some.mp hg with ⟨h, rfl⟩
        exact List.getElem_mem h
      simp only []
      rw [if_neg (by rw [hdead u0 hmem]; exact Bool.false_ne_true)]
      exact ih _

/-- A scan that starts on an alive unit stops immediately. -/
lemma currentLoop_found_now (units : List Unit) (n idx : Nat) (u : Unit)
    (hn : 0 < n) (hg : units[idx]? = some u) (ha : u.isAlive = true) :
    TurnManager.currentLoop units n idx = (idx, some u) := by
  rcases n with _ | m
  · omega
  · unfold TurnManager.currentLoop
    rw [hg]
    simp only []
    rw [if_pos ha]

/-- For any two in-range indices there is an offset below the length
that scans from the first to the second. -/
lemma exists_scan_offset {len idx j : Nat} (hidx : idx < len) (hj : j < len) :
    ∃ k < len, (idx + k) % len = j := by
  rcases le_or_lt idx j with hij | hij
  · refine ⟨j - idx, by omega, ?_⟩
    rw [show idx + (j - idx) = j by omega, Nat.mod_eq_of_lt hj]
  · refine ⟨len - idx + j, by omega, ?_⟩
    rw [show idx + (len - idx + j) = len + j by omega, Nat.add_mod_left,
      Nat.mod_eq_of_lt hj]

/-- Like `exists_scan_offset`, but with an offset of at least one (the
`do … while` advance steps before checking). -/
lemma exists_scan_offset1 {len idx j : Nat} (hidx : idx < len) (hj : j < len) :
    ∃ k, 1 ≤ k ∧ k ≤ len ∧ (idx + k) % len = j := by
  rcases lt_or_le idx j with hij | hij
  · refine ⟨j - idx, by omega, by omega, ?_⟩
    rw [show idx + (j - idx) = j by omega, Nat.mod_eq_of_lt hj]
  · refine ⟨len - idx + j, by omega, by omega, ?_⟩
    rw [show idx + (len - idx + j) = len + j by omega, Nat.add_mod_left,
      Nat.mod_eq_of_lt hj]

/-- The `do … while` advance lands on an in-range index. -/
lemma advanceLoop_lt (units : List Unit) (hlen : 0 < units.length) :
    ∀ (n idx : Nat),
      TurnManager.advanceLoop units n idx < units.length ∨
      TurnManager.advanceLoop units n idx = idx := by
  intro n
  induction n with
  | zero => intro idx; exact Or.inr rfl
  | succ m ih =>
    intro idx
    unfold TurnManager.advanceLoop
    simp only []
    rcases hg : units[(idx + 1) % units.length]? with _ | u0
    · exact Or.inl (Nat.mod_lt _ hlen)
    · simp only []
      split
      · exact Or.inl (Nat.mod_lt _ hlen)
      · rcases ih ((idx + 1) % units.length) with h | h
        · exact Or.inl h
        · rw [h]
          exact Or.inl (Nat.mod_lt _ hlen)

/-- If some positive offset within the fuel hits an alive unit, the
advance stops on an alive unit. -/
lemma advanceLoop_finds (units : List Unit) (hlen : 0 < units.length) :
    ∀ (n idx : Nat),
      (∃ k, 1 ≤ k ∧ k ≤ n ∧ ∃ u,
        units[(idx + k) % units.length]? = some u ∧ u.isAlive = true) →
      ∃ u, units[TurnManager.advanceLoop units n idx]? = some u ∧
        u.isAlive = true := by
  intro n
  induction n with
  | zero =>
    rintro idx ⟨k, hk1, hk2, _⟩
    omega
  | succ m ih =>
    rintro idx ⟨k, hk1, hk2, u, hu, hal⟩
    have hlt : (idx + 1) % units.length < units.length := Nat.mod_lt _ hlen
    have hg : units[(idx + 1) % units.length]? =
        some units[(idx + 1) % units.length] := List.getElem?_eq_getElem hlt
    unfold TurnManager.advanceLoop
    simp only []
    rw [hg]
    simp only []
    by_cases ha : (units[(idx + 1) % units.length]).isAlive = true
    · rw [if_pos ha]
      exact ⟨_, hg, ha⟩
    · rw [if_neg ha]
      rcases k with _ | k'
      · omega
      · rcases k' with _ | k''
        · exfalso
          rw [hu] at hg
          cases hg
          exact ha hal
        · refine ih ((idx + 1) % units.length) ⟨k'' + 1, by omega, by omega, u, ?_, hal⟩
          rw [Nat.mod_add_mod]
          have : (idx + 1) + (k'' + 1) = idx + (k'' + 1 + 1) := by omega
          rw [this]
          exact hu

/-- `getCurrentUnit` written out as the pair produced by the index scan. -/
lemma getCU_pair (tm : TurnManager) :
    tm.getCurrentUnit =
      ({ tm with currentIndex :=
          (TurnManager.currentLoop tm.units tm.units.length tm.currentIndex).1 },
        (TurnManager.currentLoop tm.units tm.units.length tm.currentIndex).2) := rfl

/-- `mainPhase` when the scan finds a unit: move to the found index, set
the main phase. -/
lemma mainPhase_found (tm : TurnManager) (u : Unit)
    (h : (TurnManager.currentLoop tm.units tm.units.length tm.currentIndex).2 =
      some u) :
    tm.mainPhase =
      { units := tm.units,
        currentIndex :=
          (TurnManager.currentLoop tm.units tm.units.length tm.currentIndex).1,
        phase := "main" } := by
  unfold TurnManager.mainPhase
  rw [getCU_pair]
  simp only []
  rw [h]

/-- `startTurn` when the scan finds a unit: restore that unit in place,
then run the main phase. -/
lemma tmStartTurn_found (tm : TurnManager) (j : Nat) (u : Unit)
    (h : TurnManager.currentLoop tm.units tm.units.length tm.currentIndex =
      (j, some u)) :
    tm.startTurn =
      ({ units := tm.units.set j (u.startTurn 4), currentIndex := j,
         phase := "start" } : TurnManager).mainPhase := by
  unfold TurnManager.startTurn
  rw [getCU_pair]
  simp only []
  rw [h]

/-- `endTurn` is the start of the next turn from the advanced index. -/
lemma endTurn_unfold (tm : TurnManager) :
    tm.endTurn =
      ({ units := tm.units,
         currentIndex := TurnManager.advanceLoop tm.units tm.units.length
           (TurnManager.currentLoop tm.units tm.units.length tm.currentIndex).1,
         phase := "end" } : TurnManager).startTurn := rfl

/-- `startTurn` landing on the alive unit at index `j`: the unit is
restored in place, the phase becomes main, the index stays at `j`. -/
lemma startTurn_of_found (tm : TurnManager) (j : Nat) (u : Unit)
    (hj : tm.units[j]? = some u) (hal : u.isAlive = true)
    (h : TurnManager.currentLoop tm.units tm.units.length tm.currentIndex =
      (j, some u)) :
    tm.startTurn =
      { units := tm.units.set j (u.startTurn 4), currentIndex := j,
        phase := "main" } := by
  rw [tmStartTurn_found tm j u h]
  have hjlt : j < tm.units.length := (List.getElem?_eq_some.mp hj).1
  have hlen2 : 0 < (tm.units.set j (u.startTurn 4)).length := by
    rw [List.length_set]
    omega
  have hset : (tm.units.set j (u.startTurn 4))[j]? = some (u.startTurn 4) :=
    List.getElem?_set_self hjlt
  have hfound := currentLoop_found_now (tm.units.set j (u.startTurn 4))
    (tm.units.set j (u.startTurn 4)).length j (u.startTurn 4) hlen2 hset
    (by rw [startTurn_alive]; exact hal)
  have h3 : (TurnManager.currentLoop (tm.units.set j (u.startTurn 4))
      (tm.units.set j (u.startTurn 4)).length j).2 = some (u.startTurn 4) := by
    rw [hfound]
  rw [mainPhase_found
    ({ units := tm.units.set j (u.startTurn 4),
       currentIndex := j,
       phase := "start" } : TurnManager) (u.startTurn 4) h3]
  simp only []
  rw [hfound]

/-- With the index in range and some unit alive, `getCurrentUnit` finds
an alive unit. -/
lemma getCU_alive (tm : TurnManager)
    (hidx : tm.currentIndex < tm.units.length)
    (halive : ∃ u ∈ tm.units, u.isAlive = true) :
    ∃ u, tm.getCurrentUnit.2 = some u ∧ u.isAlive = true := by
  obtain ⟨w, hw, hwal⟩ := halive
  obtain ⟨j0, hj0, hj0e⟩ := List.getElem_of_mem hw
  obtain ⟨k, hk, hke⟩ := exists_scan_offset hidx hj0
  exact currentLoop_finds tm.units tm.units.length tm.currentIndex hidx
    ⟨k, hk, w, by rw [hke, List.getElem?_eq_getElem hj0, hj0e], hwal⟩

/-- With the index in range and some unit alive, `endTurn` lands on an
alive unit `u` at some in-range index `j`, restores it in place and
enters the main phase there. -/
lemma endTurn_shape (tm : TurnManager)
    (hidx : tm.currentIndex < tm.units.length)
    (halive : ∃ u ∈ tm.units, u.isAlive = true) :
    ∃ j u, tm.units[j]? = some u ∧ u.isAlive = true ∧
      tm.endTurn = { units := tm.units.set j (u.startTurn 4),
                     currentIndex := j, phase := "main" } := by
  have hlen : 0 < tm.units.length := Nat.lt_of_le_of_lt (Nat.zero_le _) hidx
  have hL1 : (TurnManager.currentLoop tm.units tm.units.length tm.currentIndex).1 <
      tm.units.length :=
    currentLoop_idx_lt tm.units tm.units.length tm.currentIndex hidx
  have hidx2 : TurnManager.advanceLoop tm.units tm.units.length
      (TurnManager.currentLoop tm.units tm.units.length tm.currentIndex).1 <
      tm.units.length := by
    rcases advanceLoop_lt tm.units hlen tm.units.length
        (TurnManager.currentLoop tm.units tm.units.length tm.currentIndex).1 with
      h | h
    · exact h
    · rw [h]
      exact hL1
  obtain ⟨w, hw, hwal⟩ := halive
  obtain ⟨j0, hj0, hj0e⟩ := List.getElem_of_mem hw
  obtain ⟨k, hk, hke⟩ := exists_scan_offset hidx2 hj0
  obtain ⟨v, hv, hval⟩ := currentLoop_finds tm.units tm.units.length
    (TurnManager.advanceLoop tm.units tm.units.length
      (TurnManager.currentLoop tm.units tm.units.length tm.currentIndex).1) hidx2
    ⟨k, hk, w, by rw [hke, List.getElem?_eq_getElem hj0, hj0e], hwal⟩
  obtain ⟨-, hvidx⟩ := currentLoop_sound tm.units tm.units.length
    (TurnManager.advanceLoop tm.units tm.units.length
      (TurnManager.currentLoop tm.units tm.units.length tm.currentIndex).1) v hv
  have hpair : TurnManager.currentLoop tm.units tm.units.length
      (TurnManager.advanceLoop tm.units tm.units.length
        (TurnManager.currentLoop tm.units tm.units.length tm.currentIndex).1) =
      ((TurnManager.currentLoop tm.units tm.units.length
        (TurnManager.advanceLoop tm.units tm.units.length
          (TurnManager.currentLoop tm.units tm.units.length tm.currentIndex).1)).1,
        some v) := by
    rw [← hv]
  refine ⟨(TurnManager.currentLoop tm.units tm.units.length
    (TurnManager.advanceLoop tm.units tm.units.length
      (TurnManager.currentLoop tm.units tm.units.length tm.currentIndex).1)).1,
    v, hvidx, hval, ?_⟩
  rw [endTurn_unfold]
  rw [startTurn_of_found
    ({ units := tm.units,
       currentIndex := TurnManager.advanceLoop tm.units tm.units.length
         (TurnManager.currentLoop tm.units tm.units.length tm.currentIndex).1,
       phase := "end" } : TurnManager) _ v hvidx hval hpair]

/-- C5: with the current index in range, if at least one unit is alive
then `getCurrentUnit` returns an alive unit (never a dead one, and the
bounded scan terminates by construction), and after `endTurn` the next
`getCurrentUnit` again returns an alive unit (the advance never parks on
a dead unit); if every unit is dead, `getCurrentUnit` returns none. -/
theorem turn_rotation_liveness (tm : TurnManager)
    (hidx : tm.currentIndex < tm.units.length) :
    ((∃ u ∈ tm.units, u.isAlive = true) →
      (∃ u, tm.getCurrentUnit.2 = some u ∧ u.isAlive = true) ∧
      (∃ u, tm.endTurn.getCurrentUnit.2 = some u ∧ u.isAlive = true)) ∧
    ((∀ u ∈ tm.units, u.isAlive = false) → tm.getCurrentUnit.2 = none) := by
  constructor
  · intro halive
    refine ⟨getCU_alive tm hidx halive, ?_⟩
    obtain ⟨j, v, hj, hal, hET⟩ := endTurn_shape tm hidx halive
    have hjlt : j < tm.units.length := (List.getElem?_eq_some.mp hj).1
    rw [hET]
    refine getCU_alive _ ?_ ?_
    · show j < (tm.units.set j (v.startTurn 4)).length
      rw [List.length_set]
      exact hjlt
    · refine ⟨v.startTurn 4, ?_, ?_⟩
      · show v.startTurn 4 ∈ tm.units.set j (v.startTurn 4)
        refine List.getElem?_mem (List.getElem?_set_self ?_)
        exact hjlt
      · rw [startTurn_alive]
        exact hal
  · intro hdead
    exact currentLoop_none tm.units hdead tm.units.length tm.currentIndex

/-- The two-unit battle (one alive, one dead) exercises the rotation
rule at a concrete manager. -/
theorem turn_rotation_liveness_witness :
    tmFix.currentIndex < tmFix.units.length ∧
    (((∃ u ∈ tmFix.units, u.isAlive = true) →
      (∃ u, tmFix.getCurrentUnit.2 = some u ∧ u.isAlive = true) ∧
      (∃ u, tmFix.endTurn.getCurrentUnit.2 = some u ∧ u.isAlive = true)) ∧
    ((∀ u ∈ tmFix.units, u.isAlive = false) →
      tmFix.getCurrentUnit.2 = none)) :=
  ⟨by decide, turn_rotation_liveness tmFix (by decide)⟩

/-- Setting one index leaves every other index unchanged. -/
lemma listGetInt_listSetInt_ne {α : Type} (l : List α) (i j : Int) (a : α)
    (h : i ≠ j) : listGetInt (listSetInt l j a) i = listGetInt l i := by
  unfold listGetInt listSetInt
  by_cases h0 : 0 ≤ i
  · by_cases h1 : 0 ≤ j
    · rw [if_pos h1, if_pos h0, if_pos h0]
      exact List.getElem?_set_ne (by omega)
    · rw [if_neg h1]
  · rw [if_neg h0, if_neg h0]

/-- Setting an index that currently holds a value stores the new value. -/
lemma listGetInt_listSetInt_self {α : Type} (l : List α) (j : Int) (a r : α)
    (h : listGetInt l j = some r) :
    listGetInt (listSetInt l j a) j = some a := by
  unfold listGetInt at h
  unfold listGetInt listSetInt
  by_cases h1 : 0 ≤ j
  · rw [if_pos h1] at h
    rw [if_pos h1, if_pos h1]
    exact List.getElem?_set_self (List.getElem?_eq_some.mp h).1
  · rw [if_neg h1] at h
    cases h

/-- A cell read as visited after a mark was either the marked cell or
already visited. -/
lemma readV_writeV {v v' : Visited} {q : Position}
    (hw : writeV v q = some v') (x : Position)
    (hx : readV v' x = some true) : x = q ∨ readV v x = some true := by
  unfold writeV at hw
  rcases hrow : listGetInt v q.y with _ | row
  · rw [hrow] at hw
    cases hw
  · rw [hrow] at hw
    simp only [Option.some.injEq] at hw
    by_cases hy : x.y = q.y
    · have hrow' : listGetInt v' x.y = some (listSetInt row q.x true) := by
        rw [hy, ← hw]
        exact listGetInt_listSetInt_self v q.y _ row hrow
      unfold readV at hx
      rw [hrow'] at hx
      simp only [Option.map_some', Option.some.injEq] at hx
      by_cases hxx : x.x = q.x
      · left
        rcases x with ⟨xx, xy⟩
        rcases q with ⟨qx, qy⟩
        simp only [] at hy hxx
        rw [hy, hxx]
      · right
        rw [listGetInt_listSetInt_ne row x.x q.x true hxx] at hx
        unfold readV
        rw [hy, hrow]
        simp only [Option.map_some', Option.some.injEq]
        exact hx
    · right
      unfold readV at hx ⊢
      rw [← hw, listGetInt_listSetInt_ne v x.y q.y _ hy] at hx
      exact hx

/-- No cell of a fresh table reads as visited. -/
lemma mkVisited_not_true (g : Grid) (x : Position) :
    readV (mkVisited g) x ≠ some true := by
  intro h
  unfold readV mkVisited at h
  rcases hrow : listGetInt (List.replicate g.height (List.replicate g.width false)) x.y with
    _ | row
  · rw [hrow] at h
    cases h
  · have hrep : row = List.replicate g.width false := by
      unfold listGetInt at hrow
      by_cases h0 : 0 ≤ x.y
      · rw [if_pos h0] at hrow
        exact List.eq_of_mem_replicate (List.getElem?_mem hrow)
      · rw [if_neg h0] at hrow
        cases hrow
    rw [hrow] at h
    simp only [Option.map_some', Option.some.injEq] at h
    rw [hrep] at h
    unfold listGetInt at h
    by_cases h0 : 0 ≤ x.x
    · rw [if_pos h0] at h
      rcases hcell : (List.replicate g.width false)[x.x.toNat]? with _ | b
      · rw [hcell] at h
        cases h
      · rw [hcell] at h
        have hb : b = false := List.eq_of_mem_replicate (List.getElem?_mem hcell)
        rw [hb] at h
        cases h
    · rw [if_neg h0] at h
      cases h

/-- `FreeP` is the propositional reading of the Boolean test `freeB`. -/
lemma freeB_of_FreeP {m : MapGrid} {p : Position} (h : FreeP m p) :
    m.freeB p = true := by
  unfold MapGrid.freeB
  rw [h.1, h.2]
  rfl

/-- A chain extends by one orthogonal step from its endpoint. -/
lemma isChain_snoc : ∀ (tail : List Position) (src x y : Position),
    IsChain src tail → (src :: tail).getLast? = some x →
    (∃ d ∈ dirs, y = stepPos x d) → IsChain src (tail ++ [y]) := by
  intro tail
  induction tail with
  | nil =>
    intro src x y _ hlast hstep
    have hxs : x = src := by
      simp only [List.getLast?_singleton, Option.some.injEq] at hlast
      exact hlast.symm
    exact ⟨hxs ▸ hstep, trivial⟩
  | cons c cs ih =>
    intro src x y hch hlast hstep
    obtain ⟨hcd, hrest⟩ := hch
    refine ⟨hcd, ih c x y hrest ?_ hstep⟩
    rw [← hlast]
    exact List.getLast?_cons_cons.symm

/-- Dropping a chain prefix up to a known cell leaves a chain from that
cell. -/
lemma isChain_drop : ∀ (cells : List Position) (src x : Position) (k : Nat),
    IsChain src cells → cells[k]? = some x →
    IsChain x (cells.drop (k + 1)) := by
  intro cells
  induction cells with
  | nil =>
    intro src x k _ h
    cases h
  | cons c cs ih =>
    intro src x k hch hk
    obtain ⟨-, hrest⟩ := hch
    match k with
    | 0 =>
      have hcx : c = x := by
        simp only [List.getElem?_cons_zero, Option.some.injEq] at hk
        exact hk
      simpa using hcx ▸ hrest
    | k + 1 =>
      simp only [List.getElem?_cons_succ] at hk
      simpa using ih c x k hrest hk

/-- The indexed reading of a chain: every cell steps from its
predecessor. -/
lemma isChain_getElem (q : Position) : ∀ (cells : List Position)
    (src : Position), IsChain src cells → ∀ i, i < cells.length →
    ∃ d ∈ dirs, cells[i]? = some (stepPos (((src :: cells)[i]?).getD q) d) := by
  intro cells
  induction cells with
  | nil =>
    intro src _ i hi
    exact absurd hi (by simp)
  | cons c cs ih =>
    intro src hch i hi
    obtain ⟨⟨d, hd, hcd⟩, hrest⟩ := hch
    match i with
    | 0 => exact ⟨d, hd, by simp [hcd]⟩
    | i + 1 =>
      have := ih c hrest i (by simpa using hi)
      simpa using this

/-- A one-entry queue has the frontier shape. -/
lemma qshape_singleton (e : PathEntry) : QShape [e] :=
  ⟨e.cost, [e], [], by simp, by simp, by simp⟩

/-- The queue head carries the minimum cost. -/
lemma qshape_head_le {e : PathEntry} {rest : List PathEntry}
    (h : QShape (e :: rest)) : ∀ e' ∈ e :: rest, e.cost ≤ e'.cost := by
  obtain ⟨c, A, B, heq, hA, hB⟩ := h
  intro e' he'
  rcases A with _ | ⟨a, A'⟩
  · rw [List.nil_append] at heq
    have h1 := hB e (by rw [← heq]; exact List.mem_cons_self e rest)
    have h2 := hB e' (by rw [← heq]; exact he')
    omega
  · rw [List.cons_append] at heq
    injection heq with hea hrest
    have h1 : e.cost = c := by rw [hea]; exact hA a (List.mem_cons_self a A')
    rcases List.mem_cons.mp he' with rfl | he''
    · omega
    · rw [hrest] at he''
      rcases List.mem_append.mp he'' with hx | hx
      · have := hA e' (List.mem_cons_of_mem a hx)
        omega
      · have := hB e' hx
        omega

/-- Dequeueing keeps the frontier shape. -/
lemma qshape_tail {e : PathEntry} {rest : List PathEntry}
    (h : QShape (e :: rest)) : QShape rest := by
  obtain ⟨c, A, B, heq, hA, hB⟩ := h
  rcases A with _ | ⟨a, A'⟩
  · rw [List.nil_append] at heq
    rcases B with _ | ⟨b, B'⟩
    · cases heq
    · injection heq with h1 h2
      refine ⟨c + 1, B', [], by rw [List.append_nil]; exact h2, ?_, ?_⟩
      · exact fun x hx => hB x (List.mem_cons_of_mem b hx)
      · intro x hx
        exact absurd hx (List.not_mem_nil x)
  · rw [List.cons_append] at heq
    injection heq with hea hrest
    exact ⟨c, A', B, hrest, fun x hx => hA x (List.mem_cons_of_mem a hx), hB⟩

/-- Dequeueing and enqueueing the successors keeps the frontier shape. -/
lemma qshape_step {e : PathEntry} {rest pushes : List PathEntry}
    (h : QShape (e :: rest)) (hp : ∀ x ∈ pushes, x.cost = e.cost + 1) :
    QShape (rest ++ pushes) := by
  obtain ⟨c, A, B, heq, hA, hB⟩ := h
  rcases A with _ | ⟨a, A'⟩
  · rw [List.nil_append] at heq
    rcases B with _ | ⟨b, B'⟩
    · cases heq
    · injection heq with h1 h2
      refine ⟨c + 1, B', pushes, by rw [h2], ?_, ?_⟩
      · exact fun x hx => hB x (List.mem_cons_of_mem b hx)
      · intro x hx
        rw [hp x hx, h1]
        rw [hB b (List.mem_cons_self b B')]
  · rw [List.cons_append] at heq
    injection heq with hea hrest
    refine ⟨c, A', B ++ pushes, by rw [hrest, List.append_assoc], ?_, ?_⟩
    · exact fun x hx => hA x (List.mem_cons_of_mem a hx)
    · intro x hx
      rcases List.mem_append.mp hx with hx' | hx'
      · exact hB x hx'
      · rw [hp x hx', hea]
        rw [hA a (List.mem_cons_self a A')]

/-- Full characterisation of one `findPath` direction sweep: a `found`
result names the direction that hit a free destination and the returned
cells; a continuing result describes the pushed entries, shows the only
new visited marks are the pushed cells, certifies that no direction hit a
free destination, and guarantees every in-grid free neighbour was already
visited or is now pushed. -/
lemma pathExpand_spec (g : Grid) (m : MapGrid) (dst pos : Position)
    (path : List Position) (cost : Nat) :
    ∀ (ds : List (Int × Int)) (v : Visited) (r : ExpandRes),
      g.pathExpand m dst pos path cost ds v = some r →
      (∀ p, r = .found p →
        ∃ d ∈ ds, stepPos pos d = dst ∧ m.freeB dst = true ∧
          p = (path ++ [pos, dst]).drop 1) ∧
      (∀ v' pushes, r = .cont v' pushes →
        (∀ pe ∈ pushes, pe.cost = cost + 1 ∧ pe.path = path ++ [pos] ∧
          g.inGrid pe.pos = true ∧ m.freeB pe.pos = true ∧
          ∃ d ∈ ds, pe.pos = stepPos pos d) ∧
        (∀ x, readV v' x = some true →
          readV v x = some true ∨ ∃ pe ∈ pushes, pe.pos = x) ∧
        (∀ d ∈ ds, ¬(stepPos pos d = dst ∧ m.freeB (stepPos pos d) = true)) ∧
        (∀ d ∈ ds, g.inGrid (stepPos pos d) = true →
          m.freeB (stepPos pos d) = true →
          readV v (stepPos pos d) = some true ∨
          ∃ pe ∈ pushes, pe.pos = stepPos pos d)) := by
  intro ds
  induction ds with
  | nil =>
    intro v r h
    simp only [Grid.pathExpand, Option.some.injEq] at h
    subst h
    constructor
    · intro p hp
      cases hp
    · intro v' pushes h2
      cases h2
      refine ⟨?_, ?_, ?_, ?_⟩
      · intro pe hpe
        exact absurd hpe (List.not_mem_nil pe)
      · intro x hx
        exact Or.inl hx
      · intro d hd
        exact absurd hd (List.not_mem_nil d)
      · intro d hd
        exact absurd hd (List.not_mem_nil d)
  | cons d ds ih =>
    intro v r h
    by_cases hd : stepPos pos d = dst ∧ m.freeB (stepPos pos d) = true
    · have hcomp : g.pathExpand m dst pos path cost (d :: ds) v =
          some (.found ((path ++ [pos, stepPos pos d]).drop 1)) := by
        simp only [Grid.pathExpand]
        rw [if_pos hd]
      rw [hcomp, Option.some.injEq] at h
      subst h
      constructor
      · intro p hp
        cases hp
        refine ⟨d, List.mem_cons_self d ds, hd.1, hd.1 ▸ hd.2, ?_⟩
        rw [hd.1]
      · intro v' pushes h2
        cases h2
    · by_cases hg : g.inGrid (stepPos pos d) = true
      · rcases hr : readV v (stepPos pos d) with _ | seen
        · have hcomp : g.pathExpand m dst pos path cost (d :: ds) v = none := by
            simp only [Grid.pathExpand]
            rw [if_neg hd, if_pos hg, hr]
          rw [hcomp] at h
          cases h
        · by_cases hfree : (!seen && m.freeB (stepPos pos d)) = true
          · rcases hwv : writeV v (stepPos pos d) with _ | v1
            · have hcomp : g.pathExpand m dst pos path cost (d :: ds) v = none := by
                simp only [Grid.pathExpand]
                rw [if_neg hd, if_pos hg, hr]
                simp only [hfree, if_true, hwv]
              rw [hcomp] at h
              cases h
            · rcases hrec : g.pathExpand m dst pos path cost ds v1 with _ | r1
              · have hcomp : g.pathExpand m dst pos path cost (d :: ds) v = none := by
                  simp only [Grid.pathExpand]
                  rw [if_neg hd, if_pos hg, hr]
                  simp only [hfree, if_true, hwv, hrec]
                rw [hcomp] at h
                cases h
              · obtain ⟨ihf, ihc⟩ := ih v1 r1 hrec
                rcases r1 with p1 | ⟨v2, ps⟩
                · have hcomp : g.pathExpand m dst pos path cost (d :: ds) v =
                      some (.found p1) := by
                    simp only [Grid.pathExpand]
                    rw [if_neg hd, if_pos hg, hr]
                    simp only [hfree, if_true, hwv, hrec]
                  rw [hcomp, Option.some.injEq] at h
                  subst h
                  constructor
                  · intro p hp
                    cases hp
                    obtain ⟨d1, hd1, h1, h2, h3⟩ := ihf p1 rfl
                    exact ⟨d1, List.mem_cons_of_mem d hd1, h1, h2, h3⟩
                  · intro v' pushes h2
                    cases h2
                · have hcomp : g.pathExpand m dst pos path cost (d :: ds) v =
                      some (.cont v2
                        (⟨stepPos pos d, path ++ [pos], cost + 1⟩ :: ps)) := by
                    simp only [Grid.pathExpand]
                    rw [if_neg hd, if_pos hg, hr]
                    simp only [hfree, if_true, hwv, hrec]
                  rw [hcomp, Option.some.injEq] at h
                  subst h
                  obtain ⟨ihp, ihm, ihnh, ihg⟩ := ihc v2 ps rfl
                  have hfreeb : m.freeB (stepPos pos d) = true :=
                    (Bool.and_eq_true _ _ |>.mp hfree).2
                  constructor
                  · intro p hp
                    cases hp
                  · intro v' pushes h2
                    cases h2
                    refine ⟨?_, ?_, ?_, ?_⟩
                    · intro pe hpe
                      rcases List.mem_cons.mp hpe with rfl | hpe'
                      · exact ⟨rfl, rfl, hg, hfreeb,
                          d, List.mem_cons_self d ds, rfl⟩
                      · obtain ⟨h1, h2, h3, h4, d1, hd1, h5⟩ := ihp pe hpe'
                        exact ⟨h1, h2, h3, h4, d1, List.mem_cons_of_mem d hd1, h5⟩
                    · intro x hx
                      rcases ihm x hx with hv1 | ⟨pe, hpe, hpex⟩
                      · rcases readV_writeV hwv x hv1 with rfl | hv0
                        · exact Or.inr ⟨⟨stepPos pos d, path ++ [pos], cost + 1⟩,
                            List.mem_cons_self _ _, rfl⟩
                        · exact Or.inl hv0
                      · exact Or.inr ⟨pe, List.mem_cons_of_mem _ hpe, hpex⟩
                    · intro d1 hd1
                      rcases List.mem_cons.mp hd1 with rfl | hd1'
                      · exact hd
                      · exact ihnh d1 hd1'
                    · intro d1 hd1 hig hfr
                      rcases List.mem_cons.mp hd1 with rfl | hd1'
                      · exact Or.inr ⟨⟨stepPos pos d1, path ++ [pos], cost + 1⟩,
                          List.mem_cons_self _ _, rfl⟩
                      · rcases ihg d1 hd1' hig hfr with hv1 | ⟨pe, hpe, hpex⟩
                        · rcases readV_writeV hwv (stepPos pos d1) hv1 with heq | hv0
                          · exact Or.inr ⟨⟨stepPos pos d, path ++ [pos], cost + 1⟩,
                              List.mem_cons_self _ _, heq.symm⟩
                          · exact Or.inl hv0
                        · exact Or.inr ⟨pe, List.mem_cons_of_mem _ hpe, hpex⟩
          · have hcomp : g.pathExpand m dst pos path cost (d :: ds) v =
                g.pathExpand m dst pos path cost ds v := by
              simp only [Grid.pathExpand]
              rw [if_neg hd, if_pos hg, hr]
              simp only []
              rw [if_neg hfree]
            rw [hcomp] at h
            obtain ⟨ihf, ihc⟩ := ih v r h
            constructor
            · intro p hp
              obtain ⟨d1, hd1, h1, h2, h3⟩ := ihf p hp
              exact ⟨d1, List.mem_cons_of_mem d hd1, h1, h2, h3⟩
            · intro v' pushes h2
              obtain ⟨ihp, ihm, ihnh, ihg⟩ := ihc v' pushes h2
              refine ⟨?_, ihm, ?_, ?_⟩
              · intro pe hpe
                obtain ⟨h1, h2, h3, h4, d1, hd1, h5⟩ := ihp pe hpe
                exact ⟨h1, h2, h3, h4, d1, List.mem_cons_of_mem d hd1, h5⟩
              · intro d1 hd1
                rcases List.mem_cons.mp hd1 with rfl | hd1'
                · exact hd
                · exact ihnh d1 hd1'
              · intro d1 hd1 hig hfr
                rcases List.mem_cons.mp hd1 with rfl | hd1'
                · left
                  rw [hr]
                  have hseen : seen = true := by
                    rcases Bool.eq_false_or_eq_true seen with hs | hs
                    · exact hs
                    · exfalso
                      apply hfree
                      rw [hs, hfr]
                      rfl
                  rw [hseen]
                · exact ihg d1 hd1' hig hfr
      · have hcomp : g.pathExpand m dst pos path cost (d :: ds) v =
            g.pathExpand m dst pos path cost ds v := by
          simp only [Grid.pathExpand]
          rw [if_neg hd, if_neg hg]
        rw [hcomp] at h
        obtain ⟨ihf, ihc⟩ := ih v r h
        constructor
        · intro p hp
          obtain ⟨d1, hd1, h1, h2, h3⟩ := ihf p hp
          exact ⟨d1, List.mem_cons_of_mem d hd1, h1, h2, h3⟩
        · intro v' pushes h2
          obtain ⟨ihp, ihm, ihnh, ihg⟩ := ihc v' pushes h2
          refine ⟨?_, ihm, ?_, ?_⟩
          · intro pe hpe
            obtain ⟨h1, h2, h3, h4, d1, hd1, h5⟩ := ihp pe hpe
            exact ⟨h1, h2, h3, h4, d1, List.mem_cons_of_mem d hd1, h5⟩
          · intro d1 hd1
            rcases List.mem_cons.mp hd1 with rfl | hd1'
            · exact hd
            · exact ihnh d1 hd1'
          · intro d1 hd1 hig hfr
            rcases List.mem_cons.mp hd1 with rfl | hd1'
            · exact absurd hig hg
            · exact ihg d1 hd1' hig hfr

/-- `freeB` propositionally. -/
lemma FreeP_of_freeB {m : MapGrid} {p : Position} (h : m.freeB p = true) :
    FreeP m p := by
  unfold MapGrid.freeB at h
  rcases (Bool.and_eq_true _ _).mp h with ⟨h1, h2⟩
  exact ⟨h1, by simpa using h2⟩

/-- Soundness of the `findPath` loop: with every queued entry sound, a
returned path is a valid route from `src` to `dst`. -/
lemma pathLoop_sound_aux (g : Grid) (m : MapGrid) (src dst : Position)
    (maxCost : Int) :
    ∀ (fuel : Nat) (queue : List PathEntry) (v : Visited) (p : List Position),
      (∀ e ∈ queue, EntryOK g m src e) →
      g.pathLoop m dst maxCost fuel queue v = .ok (some p) →
      ValidPath g m src dst p := by
  intro fuel
  induction fuel with
  | zero =>
    intro queue v p _ h
    simp [Grid.pathLoop] at h
  | succ f ih =>
    intro queue v p hok h
    match queue with
    | [] => simp [Grid.pathLoop] at h
    | e :: rest =>
      simp only [Grid.pathLoop] at h
      by_cases hskip : (e.cost : Int) = maxCost
      · rw [if_pos hskip] at h
        exact ih rest v p (fun x hx => hok x (List.mem_cons_of_mem e hx)) h
      · rw [if_neg hskip] at h
        rcases hexp : g.pathExpand m dst e.pos e.path e.cost dirs v with _ | r
        · rw [hexp] at h
          simp only [] at h
          cases h
        · rw [hexp] at h
          obtain ⟨hf, hc⟩ := pathExpand_spec g m dst e.pos e.path e.cost dirs v r hexp
          rcases r with p1 | ⟨v1, ps⟩
          · simp only [BfsRes.ok.injEq, Option.some.injEq] at h
            subst h
            obtain ⟨d, hd, hstep, hfree, hp1⟩ := hf p1 rfl
            obtain ⟨hlen, tail, htail, hchain, hcells⟩ :=
              hok e (List.mem_cons_self e rest)
            have hlast : (src :: tail).getLast? = some e.pos := by
              rw [← htail]
              exact List.getLast?_concat _
            have hsplit : e.path ++ [e.pos, dst] = (e.path ++ [e.pos]) ++ [dst] := by
              simp
            have hp' : p1 = tail ++ [dst] := by
              rw [hp1, hsplit, htail, List.cons_append]
              rfl
            rw [hp']
            refine ⟨by simp, List.getLast?_concat _, ?_, ?_, FreeP_of_freeB hfree⟩
            · exact isChain_snoc tail src e.pos dst hchain hlast ⟨d, hd, hstep.symm⟩
            · intro y hy
              rw [List.dropLast_concat] at hy
              exact hcells y hy
          · simp only [] at h
            refine ih (rest ++ ps) v1 p ?_ h
            intro x hx
            rcases List.mem_append.mp hx with hx' | hx'
            · exact hok x (List.mem_cons_of_mem e hx')
            · obtain ⟨hc1, hc2, hc3, hc4, d, hd, hc5⟩ := (hc v1 ps rfl).1 x hx'
              obtain ⟨hlen, tail, htail, hchain, hcells⟩ :=
                hok e (List.mem_cons_self e rest)
              have hlast : (src :: tail).getLast? = some e.pos := by
                rw [← htail]
                exact List.getLast?_concat _
              refine ⟨by simp [hc2, hc1, hlen], tail ++ [x.pos], ?_, ?_, ?_⟩
              · rw [hc2, htail]
                rfl
              · exact isChain_snoc tail src e.pos x.pos hchain hlast ⟨d, hd, hc5⟩
              · intro y hy
                rcases List.mem_append.mp hy with hy' | hy'
                · exact hcells y hy'
                · have hyx : y = x.pos := by
                    rcases List.mem_cons.mp hy' with h1 | h1
                    · exact h1
                    · exact absurd h1 (List.not_mem_nil y)
                  rw [hyx]
                  exact ⟨hc3, FreeP_of_freeB hc4⟩

/-- Optimality of the `findPath` loop: relative to any fixed route
`n 0 … n L` through free in-grid cells, a state satisfying the BFS
invariant can only return a path of length at most `L`. -/
lemma pathLoop_opt_aux (g : Grid) (m : MapGrid) (dst : Position)
    (maxCost : Int) (n : Nat → Position) (L : Nat)
    (hnL : n L = dst)
    (hadj : ∀ i, i < L → ∃ d ∈ dirs, n (i + 1) = stepPos (n i) d)
    (hmid : ∀ i, 1 ≤ i → i < L → g.inGrid (n i) = true ∧ FreeP m (n i))
    (hdstF : FreeP m dst) :
    ∀ (fuel : Nat) (queue : List PathEntry) (v : Visited) (p : List Position),
      PathInv maxCost n L queue v →
      g.pathLoop m dst maxCost fuel queue v = .ok (some p) →
      p.length ≤ L := by
  classical
  intro fuel
  induction fuel with
  | zero =>
    intro queue v p _ h
    simp [Grid.pathLoop] at h
  | succ f ih =>
    intro queue v p hinv h
    match queue with
    | [] => simp [Grid.pathLoop] at h
    | e :: rest =>
      obtain ⟨hS, hQ, hCap, hW⟩ := hinv
      simp only [Grid.pathLoop] at h
      by_cases hskip : (e.cost : Int) = maxCost
      · rw [if_pos hskip] at h
        refine ih rest v p ⟨fun x hx => hS x (List.mem_cons_of_mem e hx),
          qshape_tail hQ,
          fun hm x hx => hCap hm x (List.mem_cons_of_mem e hx), ?_⟩ h
        rcases hW with ⟨j, hjL, ⟨ew, hewmem, hewpos, hewcost⟩, hunv⟩ | hdead
        · rcases List.mem_cons.mp hewmem with rfl | hewrest
          · right
            intro x hx
            have h1 : ew.cost ≤ x.cost :=
              qshape_head_le hQ x (List.mem_cons_of_mem ew hx)
            have hm0 : 0 ≤ maxCost := by omega
            have h2 : (x.cost : Int) ≤ maxCost :=
              hCap hm0 x (List.mem_cons_of_mem ew hx)
            omega
          · exact Or.inl ⟨j, hjL, ⟨ew, hewrest, hewpos, hewcost⟩, hunv⟩
        · exact Or.inr (fun x hx => hdead x (List.mem_cons_of_mem e hx))
      · rw [if_neg hskip] at h
        rcases hexp : g.pathExpand m dst e.pos e.path e.cost dirs v with _ | r
        · rw [hexp] at h
          simp only [] at h
          cases h
        · rw [hexp] at h
          obtain ⟨hf, hc⟩ := pathExpand_spec g m dst e.pos e.path e.cost dirs v r hexp
          have hWit : ∃ j, j < L ∧ (∃ ew ∈ e :: rest, ew.pos = n j ∧ ew.cost ≤ j) ∧
              ∀ i, j < i → i < L → readV v (n i) ≠ some true := by
            rcases hW with hw | hdead
            · exact hw
            · exact absurd (hdead e (List.mem_cons_self e rest)) hskip
          obtain ⟨j, hjL, ⟨ew, hewmem, hewpos, hewcost⟩, hunv⟩ := hWit
          have hecost : e.cost ≤ ew.cost := qshape_head_le hQ ew hewmem
          rcases r with p1 | ⟨v1, ps⟩
          · simp only [BfsRes.ok.injEq, Option.some.injEq] at h
            subst h
            obtain ⟨d, hd, hstep, hfree, hp1⟩ := hf p1 rfl
            have hlen : p1.length = e.cost + 1 := by
              rw [hp1]
              simp [List.length_drop, hS e (List.mem_cons_self e rest)]
            omega
          · simp only [] at h
            obtain ⟨hps, hmarks, hnohit, hguar⟩ := hc v1 ps rfl
            refine ih (rest ++ ps) v1 p ⟨?_, ?_, ?_, ?_⟩ h
            · intro x hx
              rcases List.mem_append.mp hx with hx' | hx'
              · exact hS x (List.mem_cons_of_mem e hx')
              · obtain ⟨h1, h2, -, -, -⟩ := hps x hx'
                rw [h2, h1]
                simp [hS e (List.mem_cons_self e rest)]
            · exact qshape_step hQ (fun x hx => (hps x hx).1)
            · intro hm x hx
              rcases List.mem_append.mp hx with hx' | hx'
              · exact hCap hm x (List.mem_cons_of_mem e hx')
              · have h2 := hCap hm e (List.mem_cons_self e rest)
                have h1 := (hps x hx').1
                omega
            · by_cases hex : ∃ i, (j < i ∧ i < L) ∧ ∃ pe ∈ ps, pe.pos = n i
              · left
                obtain ⟨i0, hi0⟩ := hex
                have hble : i0 ≤ L := Nat.le_of_lt hi0.1.2
                have hspec := Nat.findGreatest_spec
                  (P := fun i => (j < i ∧ i < L) ∧ ∃ pe ∈ ps, pe.pos = n i)
                  hble hi0
                obtain ⟨⟨hj1, hj2⟩, pe, hpemem, hpepos⟩ := hspec
                refine ⟨Nat.findGreatest
                    (fun i => (j < i ∧ i < L) ∧ ∃ pe ∈ ps, pe.pos = n i) L,
                  hj2, ⟨pe, List.mem_append_right rest hpemem, hpepos, ?_⟩, ?_⟩
                · have := (hps pe hpemem).1
                  omega
                · intro i hi1 hi2 hit
                  rcases hmarks (n i) hit with hold | ⟨pe', hpe', hpe'pos⟩
                  · exact hunv i (by omega) hi2 hold
                  · exact Nat.findGreatest_is_greatest hi1 (Nat.le_of_lt hi2)
                      ⟨⟨by omega, hi2⟩, pe', hpe', hpe'pos⟩
              · rcases List.mem_cons.mp hewmem with rfl | hewrest
                · exfalso
                  obtain ⟨d, hd, hstep⟩ := hadj j hjL
                  by_cases hjL1 : j + 1 = L
                  · have hsd : stepPos ew.pos d = dst := by
                      rw [hewpos, ← hstep, hjL1, hnL]
                    exact hnohit d hd ⟨hsd, by rw [hsd]; exact freeB_of_FreeP hdstF⟩
                  · have hjl : j + 1 < L := by omega
                    obtain ⟨hig, hfr⟩ := hmid (j + 1) (by omega) hjl
                    have hx : stepPos ew.pos d = n (j + 1) := by
                      rw [hewpos, ← hstep]
                    rcases hguar d hd (by rw [hx]; exact hig)
                        (by rw [hx]; exact freeB_of_FreeP hfr) with
                      hvis | ⟨pe, hpe, hpepos⟩
                    · rw [hx] at hvis
                      exact hunv (j + 1) (by omega) hjl hvis
                    · exact hex ⟨j + 1, ⟨by omega, hjl⟩, pe, hpe, by rw [hpepos, hx]⟩
                · left
                  refine ⟨j, hjL, ⟨ew, List.mem_append_left ps hewrest, hewpos,
                    hewcost⟩, ?_⟩
                  intro i hi1 hi2 hit
                  rcases hmarks (n i) hit with hold | ⟨pe, hpe, hpepos⟩
                  · exact hunv i hi1 hi2 hold
                  · exact hex ⟨i, ⟨hi1, hi2⟩, pe, hpe, hpepos⟩

/-- `dropLast` reads like the original list before the last index. -/
lemma getElem?_dropLast {α : Type} (l : List α) (i : Nat)
    (h : i < l.length - 1) : l.dropLast[i]? = l[i]? := by
  rcases Nat.lt_or_ge i l.dropLast.length with h1 | h1
  · rw [List.getElem?_eq_getElem h1, List.getElem_dropLast,
      ← List.getElem?_eq_getElem]
  · rw [List.length_dropLast] at h1
    omega

/-- Dropping a prefix commutes with dropping the last element. -/
lemma dropLast_drop {α : Type} : ∀ (l : List α) (i : Nat),
    (l.drop i).dropLast = l.dropLast.drop i := by
  intro l
  induction l with
  | nil => intro i; simp
  | cons a l ih =>
    intro i
    match i with
    | 0 => simp
    | i + 1 =>
      simp only [List.drop_succ_cons]
      rw [ih i]
      rcases l with _ | ⟨b, l2⟩
      · simp
      · rw [List.dropLast_cons₂]
        simp

/-- The initial `findPath` state satisfies the optimality invariant for
any route that does not revisit the start. -/
lemma pathInv_init (g : Grid) (src : Position) (maxCost : Int)
    (n : Nat → Position) (L : Nat) (hL : 1 ≤ L) (hn0 : n 0 = src)
    (hnosrc : ∀ i, 1 ≤ i → i < L → n i ≠ src)
    (v0 : Visited) (hv0 : writeV (mkVisited g) src = some v0) :
    PathInv maxCost n L [⟨src, [], 0⟩] v0 := by
  refine ⟨?_, qshape_singleton _, ?_, Or.inl ⟨0, by omega,
    ⟨⟨src, [], 0⟩, List.mem_cons_self _ _, hn0.symm, Nat.le.refl⟩, ?_⟩⟩
  · intro e he
    rcases List.mem_singleton.mp he with rfl
    rfl
  · intro hm e he
    rcases List.mem_singleton.mp he with rfl
    simpa using hm
  · intro i hi1 hi2 hit
    rcases readV_writeV hv0 (n i) hit with heq | hmk
    · exact hnosrc i (by omega) hi2 heq
    · exact mkVisited_not_true g (n i) hmk

/-- Any successful run of the `findPath` loop from the initial state
returns a path no longer than any valid route. -/
lemma pathLoop_shortest (g : Grid) (m : MapGrid) (src dst : Position)
    (maxCost : Int) (v0 : Visited)
    (hv0 : writeV (mkVisited g) src = some v0) (p : List Position)
    (hrun : g.pathLoop m dst maxCost (g.width * g.height + 2)
      [⟨src, [], 0⟩] v0 = .ok (some p)) :
    ∀ (N : Nat) (cells : List Position), cells.length ≤ N →
      ValidPath g m src dst cells → p.length ≤ cells.length := by
  intro N
  induction N with
  | zero =>
    intro cells hlen hvp
    exact absurd (List.length_eq_zero.mp (by omega)) hvp.1
  | succ N ih =>
    intro cells hlen hvp
    obtain ⟨hne, hlast, hch, hfreeC, hdf⟩ := hvp
    have hlenc : 0 < cells.length := List.length_pos.mpr hne
    by_cases hrev : ∃ k, k < cells.length - 1 ∧ cells[k]? = some src
    · obtain ⟨k, hk, hks⟩ := hrev
      have hvp2 : ValidPath g m src dst (cells.drop (k + 1)) := by
        refine ⟨?_, ?_, isChain_drop cells src src k hch hks, ?_, hdf⟩
        · intro hnil
          have h1 := congrArg List.length hnil
          rw [List.length_drop] at h1
          simp only [List.length_nil] at h1
          omega
        · rw [List.getLast?_eq_getElem? _, List.getElem?_drop, List.length_drop]
          have harith : k + 1 + (cells.length - (k + 1) - 1) = cells.length - 1 := by
            omega
          rw [harith, ← List.getLast?_eq_getElem? cells]
          exact hlast
        · intro y hy
          rw [dropLast_drop] at hy
          exact hfreeC y (List.mem_of_mem_drop hy)
      have h1 := ih (cells.drop (k + 1)) (by rw [List.length_drop]; omega) hvp2
      refine h1.trans ?_
      rw [List.length_drop]
      omega
    · refine pathLoop_opt_aux g m dst maxCost
        (fun i => ((src :: cells)[i]?).getD dst) cells.length ?_ ?_ ?_ hdf
        (g.width * g.height + 2) [⟨src, [], 0⟩] v0 p ?_ hrun
      · rcases cells with _ | ⟨c, cs⟩
        · exact absurd rfl hne
        · show ((src :: c :: cs)[(c :: cs).length]?).getD dst = dst
          rw [List.getLast?_eq_getElem? _] at hlast
          simp only [List.length_cons] at hlast ⊢
          rw [Nat.add_sub_cancel] at hlast
          rw [List.getElem?_cons_succ, hlast]
          rfl
      · intro i hi
        obtain ⟨d, hd, hcd⟩ := isChain_getElem dst cells src hch i hi
        refine ⟨d, hd, ?_⟩
        show ((src :: cells)[i + 1]?).getD dst =
          stepPos (((src :: cells)[i]?).getD dst) d
        rw [List.getElem?_cons_succ, hcd]
        rfl
      · intro i hi1 hi2
        obtain ⟨i2, rfl⟩ : ∃ i2, i = i2 + 1 := ⟨i - 1, by omega⟩
        have hlt : i2 < cells.length := by omega
        have hdl : cells.dropLast[i2]? = cells[i2]? :=
          getElem?_dropLast cells i2 (by omega)
        have hmem : cells[i2] ∈ cells.dropLast := by
          rw [List.mem_iff_getElem?]
          exact ⟨i2, by rw [hdl]; exact List.getElem?_eq_getElem hlt⟩
        have hfr := hfreeC _ hmem
        show g.inGrid (((src :: cells)[i2 + 1]?).getD dst) = true ∧
          FreeP m (((src :: cells)[i2 + 1]?).getD dst)
        rw [List.getElem?_cons_succ, List.getElem?_eq_getElem hlt]
        exact hfr
      · refine pathInv_init g src maxCost _ cells.length hlenc (by simp) ?_ v0 hv0
        intro i hi1 hi2 heq
        obtain ⟨i2, rfl⟩ : ∃ i2, i = i2 + 1 := ⟨i - 1, by omega⟩
        have hlt : i2 < cells.length := by omega
        apply hrev
        refine ⟨i2, by omega, ?_⟩
        have heq2 : ((src :: cells)[i2 + 1]?).getD dst = src := heq
        rw [List.getElem?_cons_succ, List.getElem?_eq_getElem hlt] at heq2
        simp only [Option.getD_some] at heq2
        rw [List.getElem?_eq_getElem hlt, heq2]

/-- C4: `findPath(A, A, maxCost, map)` returns the empty path (never an
error) for every map and budget; and whenever `findPath` returns a path,
every cell on it (intermediates and destination alike) is unoccupied, and
the path is no longer than any valid orthogonal route through walkable
unoccupied cells — in particular no longer than the true shortest one. -/
theorem findPath_correct (g : Grid) (m : MapGrid) (a src dst : Position)
    (maxCost : Int) (p : List Position) :
    g.findPath a a maxCost m = .ok (some []) ∧
    (g.findPath src dst maxCost m = .ok (some p) →
      (∀ c ∈ p, m.isOccupied c = false) ∧
      ∀ q, ValidPath g m src dst q → p.length ≤ q.length) := by
  constructor
  · unfold Grid.findPath
    rw [if_pos rfl]
  · intro h
    by_cases hsd : src = dst
    · unfold Grid.findPath at h
      rw [if_pos hsd] at h
      simp only [BfsRes.ok.injEq, Option.some.injEq] at h
      subst h
      constructor
      · intro c hc
        exact absurd hc (List.not_mem_nil c)
      · intro q hq
        simp
    · unfold Grid.findPath at h
      rw [if_neg hsd] at h
      rcases hw : writeV (mkVisited g) src with _ | v0
      · rw [hw] at h
        simp only [] at h
        cases h
      · rw [hw] at h
        simp only [] at h
        constructor
        · have hok : ∀ e ∈ [(⟨src, [], 0⟩ : PathEntry)], EntryOK g m src e := by
            intro e he
            rcases List.mem_singleton.mp he with rfl
            exact ⟨rfl, [], rfl, trivial, fun x hx => absurd hx (List.not_mem_nil x)⟩
          obtain ⟨hne, hlast, hch, hfreeC, hdf⟩ := pathLoop_sound_aux g m src dst
            maxCost (g.width * g.height + 2) [⟨src, [], 0⟩] v0 p hok h
          intro c hc
          have hsp : p.dropLast ++ [p.getLast hne] = p :=
            List.dropLast_append_getLast hne
          rw [← hsp] at hc
          rcases List.mem_append.mp hc with hc2 | hc2
          · exact (hfreeC c hc2).2.2
          · have hcl : c = p.getLast hne := by
              rcases List.mem_cons.mp hc2 with h1 | h1
              · exact h1
              · exact absurd h1 (List.not_mem_nil c)
            have h3 : (some dst : Option Position) = some (p.getLast hne) := by
              rw [← hlast]
              exact List.getLast?_eq_getLast p hne
            injection h3 with h4
            rw [hcl, ← h4]
            exact hdf.2
        · intro q hq
          exact pathLoop_shortest g m src dst maxCost v0 hw p h q.length q
            le_rfl hq

/-- A concrete two-step run on the empty board exercises the pathfinding
correctness theorem. -/
theorem findPath_correct_witness :
    grid10.findPath ⟨0, 0⟩ ⟨2, 0⟩ 5 emptyMap10 =
      .ok (some [⟨1, 0⟩, ⟨2, 0⟩]) ∧
    grid10.findPath ⟨5, 5⟩ ⟨5, 5⟩ 5 emptyMap10 = .ok (some []) ∧
    (∀ c ∈ [(⟨1, 0⟩ : Position), ⟨2, 0⟩], emptyMap10.isOccupied c = false) ∧
    (∀ q, ValidPath grid10 emptyMap10 ⟨0, 0⟩ ⟨2, 0⟩ q →
      ([(⟨1, 0⟩ : Position), ⟨2, 0⟩]).length ≤ q.length) :=
  ⟨by decide,
   (findPath_correct grid10 emptyMap10 ⟨5, 5⟩ ⟨0, 0⟩ ⟨2, 0⟩ 5
     [⟨1, 0⟩, ⟨2, 0⟩]).1,
   ((findPath_correct grid10 emptyMap10 ⟨5, 5⟩ ⟨0, 0⟩ ⟨2, 0⟩ 5
     [⟨1, 0⟩, ⟨2, 0⟩]).2 (by decide)).1,
   ((findPath_correct grid10 emptyMap10 ⟨5, 5⟩ ⟨0, 0⟩ ⟨2, 0⟩ 5
     [⟨1, 0⟩, ⟨2, 0⟩]).2 (by decide)).2⟩

end Landust
